import Mathlib

/-!
Verification of the Beaver-agent pipeline: the PII tokenization vault
(`src/security.py`) and the LangGraph workflow state machine
(`src/graph.py`, `src/agents.py`, `src/config.py`).

Text is modelled as `List Char` (Python `str`).  The token regular
expression used by `PIIManager.deanonymize` is
`\[[A-Z_]+_[a-f0-9]{8}\]`; `matchToken` below implements a complete
leftmost match of that pattern at the head of a string, `findTokens`
implements `re.findall` (leftmost, non-overlapping), and `replaceAll`
implements Python `str.replace` (all non-overlapping occurrences,
left to right).
-/

namespace Beaver

/-- Text is a list of characters (Python `str`). -/
abbrev Str := List Char

/-- Character class `[A-Z_]` of the token pattern (ASCII codepoints). -/
def isUpperU (c : Char) : Bool := (65 ≤ c.toNat && c.toNat ≤ 90) || c.toNat == 95

/-- Character class `[a-f0-9]` of the token pattern (ASCII codepoints):
the alphabet of `str(uuid.uuid4())[:8]`. -/
def isHexL (c : Char) : Bool := (97 ≤ c.toNat && c.toNat ≤ 102) || (48 ≤ c.toNat && c.toNat ≤ 57)

lemma isHexL_not_isUpperU {c : Char} (h : isHexL c = true) : isUpperU c = false := by
  simp only [isHexL, Bool.or_eq_true, Bool.and_eq_true, decide_eq_true_eq] at h
  simp only [isUpperU, Bool.or_eq_false_iff, Bool.and_eq_false_iff, decide_eq_false_iff_not,
    beq_eq_false_iff_ne, ne_eq]
  omega

lemma isUpperU_ne_lbracket {c : Char} (h : isUpperU c = true) : c ≠ '[' := by
  intro hc
  subst hc
  simp [isUpperU] at h

lemma isHexL_ne_lbracket {c : Char} (h : isHexL c = true) : c ≠ '[' := by
  intro hc
  subst hc
  simp [isHexL] at h

lemma isUpperU_ne_rbracket {c : Char} (h : isUpperU c = true) : c ≠ ']' := by
  intro hc
  subst hc
  simp [isUpperU] at h

lemma isHexL_ne_rbracket {c : Char} (h : isHexL c = true) : c ≠ ']' := by
  intro hc
  subst hc
  simp [isHexL] at h

/-- Attempt a complete match of the token pattern `\[[A-Z_]+_[a-f0-9]{8}\]`
at the head of `s`.  On success returns the matched token and the rest of
the string after it.  The Python regex engine's behaviour on this pattern
coincides with: a `[`, then the maximal run of `[A-Z_]` (which must have
length ≥ 2 and end in `_`, since the hex class is disjoint from `[A-Z_]`),
then exactly eight `[a-f0-9]` characters, then `]`. -/
def matchToken : Str → Option (Str × Str)
  | [] => none
  | c :: rest =>
    if c = '[' then
      if 2 ≤ (rest.takeWhile isUpperU).length ∧
          (rest.takeWhile isUpperU).getLast? = some '_' then
        match rest.dropWhile isUpperU with
        | h1 :: h2 :: h3 :: h4 :: h5 :: h6 :: h7 :: h8 :: d :: tail =>
          if d = ']' ∧ ([h1, h2, h3, h4, h5, h6, h7, h8].all isHexL = true) then
            some ('[' :: rest.takeWhile isUpperU ++ [h1, h2, h3, h4, h5, h6, h7, h8, ']'], tail)
          else none
        | _ => none
      else none
    else none

/-- `m` is exactly one complete token (a full match of the pattern with
nothing left over). -/
def isTok (m : Str) : Prop := matchToken m = some (m, [])

instance (m : Str) : Decidable (isTok m) := by unfold isTok; infer_instance

/-- Structural characterization of a token: `[`, a run of `[A-Z_]` of
length ≥ 2 ending in `_`, eight hex characters, `]`. -/
def TokShape (m : Str) : Prop :=
  ∃ run h1 h2 h3 h4 h5 h6 h7 h8,
    m = '[' :: run ++ [h1, h2, h3, h4, h5, h6, h7, h8, ']'] ∧
    2 ≤ run.length ∧ run.getLast? = some '_' ∧ (∀ c ∈ run, isUpperU c = true) ∧
    ([h1, h2, h3, h4, h5, h6, h7, h8].all isHexL = true)

lemma takeWhile_append_all {p : Char → Bool} {a : Str} (b : Str)
    (h : ∀ c ∈ a, p c = true) : (a ++ b).takeWhile p = a ++ b.takeWhile p := by
  induction a with
  | nil => simp
  | cons c a ih =>
    have hc : p c = true := h c (by simp)
    simp only [List.cons_append, List.takeWhile_cons, hc]
    simp [ih fun x hx => h x (by simp [hx])]

lemma dropWhile_append_all {p : Char → Bool} {a : Str} (b : Str)
    (h : ∀ c ∈ a, p c = true) : (a ++ b).dropWhile p = b.dropWhile p := by
  induction a with
  | nil => simp
  | cons c a ih =>
    have hc : p c = true := h c (by simp)
    simp only [List.cons_append, List.dropWhile_cons, hc]
    simp [ih fun x hx => h x (by simp [hx])]

lemma takeWhile_cons_false {p : Char → Bool} {c : Char} (b : Str)
    (h : p c = false) : (c :: b).takeWhile p = [] := by
  simp [List.takeWhile_cons, h]

lemma dropWhile_cons_false {p : Char → Bool} {c : Char} (b : Str)
    (h : p c = false) : (c :: b).dropWhile p = c :: b := by
  simp [List.dropWhile_cons, h]

/-- A complete token match, followed by anything, matches and consumes
exactly the token. -/
lemma matchToken_shape_append {m : Str} (hm : TokShape m) (r : Str) :
    matchToken (m ++ r) = some (m, r) := by
  obtain ⟨run, h1, h2, h3, h4, h5, h6, h7, h8, rfl, hlen, hlast, hrun, hhex⟩ := hm
  have hh1 : isHexL h1 = true := by simp [List.all_cons] at hhex; exact hhex.1
  have hup : isUpperU h1 = false := isHexL_not_isUpperU hh1
  simp only [List.cons_append, List.append_assoc]
  rw [matchToken]
  rw [if_pos rfl]
  rw [takeWhile_append_all _ hrun, dropWhile_append_all _ hrun,
    takeWhile_cons_false _ hup, dropWhile_cons_false _ hup]
  simp only [List.append_nil]
  rw [if_pos ⟨hlen, hlast⟩]
  simp [hhex]

lemma matchToken_sound {s m r : Str} (h : matchToken s = some (m, r)) :
    s = m ++ r ∧ TokShape m := by
  match s with
  | [] => simp [matchToken] at h
  | c :: rest =>
    rw [matchToken] at h
    split at h
    · next hc =>
      subst hc
      split at h
      · next hcond =>
        split at h
        · next a b c3 d4 e5 f6 g7 k8 d tail hafter =>
          split at h
          · next hd =>
            obtain ⟨hd1, hd2⟩ := hd
            subst hd1
            simp only [Option.some.injEq, Prod.mk.injEq] at h
            obtain ⟨h1, h2⟩ := h
            subst h1
            subst h2
            constructor
            · have hsplit : rest = rest.takeWhile isUpperU ++ rest.dropWhile isUpperU :=
                (List.takeWhile_append_dropWhile ..).symm
              rw [hafter] at hsplit
              conv_lhs => rw [hsplit]
              simp
            · exact ⟨rest.takeWhile isUpperU, a, b, c3, d4, e5, f6, g7, k8, rfl,
                hcond.1, hcond.2, fun x hx => List.mem_takeWhile_imp hx, hd2⟩
          · simp at h
        · simp at h
      · simp at h
    · simp at h

lemma isTok_iff_tokShape {m : Str} : isTok m ↔ TokShape m := by
  constructor
  · intro h
    exact (matchToken_sound h).2
  · intro h
    have := matchToken_shape_append h []
    simpa [isTok] using this

lemma isTok_of_matchToken {s m r : Str} (h : matchToken s = some (m, r)) : isTok m :=
  isTok_iff_tokShape.mpr (matchToken_sound h).2

/-- A token is nonempty (it starts with `[`). -/
lemma tokShape_ne_nil {m : Str} (hm : TokShape m) : m ≠ [] := by
  obtain ⟨run, h1, h2, h3, h4, h5, h6, h7, h8, rfl, -⟩ := hm
  simp

lemma tokShape_head {m : Str} (hm : TokShape m) : ∃ t, m = '[' :: t := by
  obtain ⟨run, h1, h2, h3, h4, h5, h6, h7, h8, rfl, -⟩ := hm
  exact ⟨_, rfl⟩

/-- Every character of a token other than the leading one is in the run,
the hex block, or is the final `]` — never `[`. -/
lemma tokShape_no_lbracket_tail {m y z : Str} (hm : TokShape m)
    (hsplit : m = y ++ z) (hy : y ≠ []) (hz : z ≠ []) : z.head? ≠ some '[' := by
  obtain ⟨run, h1, h2, h3, h4, h5, h6, h7, h8, hshape, hlen, hlast, hrun, hhex⟩ := hm
  intro hhead
  obtain ⟨c0, z', rfl⟩ : ∃ c0 z', z = c0 :: z' := by
    cases z with
    | nil => exact absurd rfl hz
    | cons c0 z' => exact ⟨c0, z', rfl⟩
  simp only [List.head?_cons, Option.some.injEq] at hhead
  subst hhead
  obtain ⟨y0, y', rfl⟩ : ∃ y0 y', y = y0 :: y' := by
    cases y with
    | nil => exact absurd rfl hy
    | cons y0 y' => exact ⟨y0, y', rfl⟩
  rw [hshape] at hsplit
  have hy0 : y0 = '[' := by
    have := congrArg List.head? hsplit
    simpa using this.symm
  subst hy0
  have hbody : run ++ [h1, h2, h3, h4, h5, h6, h7, h8, ']'] = y' ++ '[' :: z' := by
    have := hsplit
    simpa using this
  have hmem : '[' ∈ run ++ [h1, h2, h3, h4, h5, h6, h7, h8, ']'] := by
    rw [hbody]
    simp
  simp only [List.mem_append] at hmem
  rcases hmem with hmem | hmem
  · exact isUpperU_ne_lbracket (hrun _ hmem) rfl
  · simp only [List.all_cons, List.all_nil, Bool.and_eq_true] at hhex
    simp only [List.mem_cons, List.not_mem_nil, or_false] at hmem
    rcases hmem with rfl | rfl | rfl | rfl | rfl | rfl | rfl | rfl | hmem
    · exact isHexL_ne_lbracket hhex.1 rfl
    · exact isHexL_ne_lbracket hhex.2.1 rfl
    · exact isHexL_ne_lbracket hhex.2.2.1 rfl
    · exact isHexL_ne_lbracket hhex.2.2.2.1 rfl
    · exact isHexL_ne_lbracket hhex.2.2.2.2.1 rfl
    · exact isHexL_ne_lbracket hhex.2.2.2.2.2.1 rfl
    · exact isHexL_ne_lbracket hhex.2.2.2.2.2.2.1 rfl
    · exact isHexL_ne_lbracket hhex.2.2.2.2.2.2.2.1 rfl
    · simp at hmem

/-- If the characters before a final `a` are all different from `a`, then a
split of the list at an `a` must be the split at that final element. -/
lemma split_at_unique_last {α : Type} {a : α} {front y z : List α}
    (hfront : ∀ c ∈ front, c ≠ a) (h : front ++ [a] = y ++ a :: z) : z = [] := by
  induction front generalizing y with
  | nil =>
    cases y with
    | nil => simpa using h
    | cons y0 y' =>
      have := congrArg List.length h
      simp at this
  | cons f front ih =>
    cases y with
    | nil =>
      simp only [List.cons_append, List.nil_append, List.cons.injEq] at h
      exact absurd h.1 (hfront f (by simp))
    | cons y0 y' =>
      simp only [List.cons_append, List.cons.injEq] at h
      exact ih (fun c hc => hfront c (by simp [hc])) h.2

/-- `]` occurs in a token only as its very last character. -/
lemma tokShape_rbracket_last {m y z : Str} (hm : TokShape m)
    (hsplit : m = y ++ ']' :: z) : z = [] := by
  obtain ⟨run, h1, h2, h3, h4, h5, h6, h7, h8, hshape, hlen, hlast, hrun, hhex⟩ := hm
  simp only [List.all_cons, List.all_nil, Bool.and_eq_true] at hhex
  -- every character of m except the final one is ≠ ']'
  have hfront : ∀ c ∈ '[' :: run ++ [h1, h2, h3, h4, h5, h6, h7, h8], c ≠ ']' := by
    intro c hc
    simp only [List.cons_append, List.mem_cons, List.mem_append] at hc
    rcases hc with rfl | hc | hc
    · intro h; simp at h
    · exact isUpperU_ne_rbracket (hrun _ hc)
    · simp only [List.mem_cons, List.not_mem_nil, or_false] at hc
      rcases hc with rfl | rfl | rfl | rfl | rfl | rfl | rfl | rfl
      · exact isHexL_ne_rbracket hhex.1
      · exact isHexL_ne_rbracket hhex.2.1
      · exact isHexL_ne_rbracket hhex.2.2.1
      · exact isHexL_ne_rbracket hhex.2.2.2.1
      · exact isHexL_ne_rbracket hhex.2.2.2.2.1
      · exact isHexL_ne_rbracket hhex.2.2.2.2.2.1
      · exact isHexL_ne_rbracket hhex.2.2.2.2.2.2.1
      · exact isHexL_ne_rbracket hhex.2.2.2.2.2.2.2.1
  have hm2 : ('[' :: run ++ [h1, h2, h3, h4, h5, h6, h7, h8]) ++ [']'] = y ++ ']' :: z := by
    rw [← hsplit, hshape]
    simp
  exact split_at_unique_last hfront hm2

/-- Two tokens that are prefixes of a common string are equal. -/
lemma tokShape_eq_of_common_front {a b x y : Str} (ha : TokShape a) (hb : TokShape b)
    (h : a ++ x = b ++ y) : a = b := by
  rcases List.append_eq_append_iff.mp h with ⟨d, hd, -⟩ | ⟨d, hd, -⟩
  · -- b = a ++ d
    cases d with
    | nil => simp [hd]
    | cons d0 d' =>
      exfalso
      obtain ⟨run, h1, h2, h3, h4, h5, h6, h7, h8, hshape, -⟩ := ha
      have : b = ('[' :: run ++ [h1, h2, h3, h4, h5, h6, h7, h8]) ++ ']' :: (d0 :: d') := by
        rw [hd, hshape]; simp
      have := tokShape_rbracket_last hb this
      simp at this
  · -- a = b ++ d
    cases d with
    | nil => simp [hd]
    | cons d0 d' =>
      exfalso
      obtain ⟨run, h1, h2, h3, h4, h5, h6, h7, h8, hshape, -⟩ := hb
      have : a = ('[' :: run ++ [h1, h2, h3, h4, h5, h6, h7, h8]) ++ ']' :: (d0 :: d') := by
        rw [hd, hshape]; simp
      have := tokShape_rbracket_last ha this
      simp at this

lemma matchToken_tail_lt {s m tail : Str} (h : matchToken s = some (m, tail)) :
    tail.length < s.length := by
  obtain ⟨hs, hm⟩ := matchToken_sound h
  obtain ⟨t, rfl⟩ := tokShape_head hm
  rw [hs]
  simp
  omega

/-- `re.findall` of the token pattern: scan left to right, collecting
non-overlapping leftmost matches. -/
def findTokens : Str → List Str
  | [] => []
  | c :: rest =>
    match h : matchToken (c :: rest) with
    | some (m, tail) => m :: findTokens tail
    | none => findTokens rest
termination_by s => s.length
decreasing_by
  · exact matchToken_tail_lt h
  · simp

lemma findTokens_nil : findTokens [] = [] := by
  rw [findTokens]

lemma findTokens_cons_some {c : Char} {rest m tail : Str}
    (h : matchToken (c :: rest) = some (m, tail)) :
    findTokens (c :: rest) = m :: findTokens tail := by
  rw [findTokens]
  split
  · next m' tail' h' =>
    rw [h'] at h
    simp only [Option.some.injEq, Prod.mk.injEq] at h
    rw [h.1, h.2]
  · next h' =>
    rw [h'] at h
    simp at h

lemma findTokens_cons_none {c : Char} {rest : Str}
    (h : matchToken (c :: rest) = none) :
    findTokens (c :: rest) = findTokens rest := by
  rw [findTokens]
  split
  · next m' tail' h' =>
    rw [h'] at h
    simp at h
  · rfl

/-- `pat` occurs in `s` as a contiguous substring. -/
def Occurs (pat s : Str) : Prop := ∃ x y, s = x ++ pat ++ y

/-- `s` contains some complete token as a contiguous substring.  The
round-trip theorems assume the input text is free of token-shaped
substrings (uuid-collision freshness). -/
def HasTok (s : Str) : Prop := ∃ x m y, s = x ++ m ++ y ∧ isTok m

/-- Executable check for `HasTok`. -/
def hasTokB (s : Str) : Bool :=
  (List.range (s.length + 1)).any fun i => (matchToken (s.drop i)).isSome

lemma hasTok_iff {s : Str} : HasTok s ↔ hasTokB s = true := by
  constructor
  · rintro ⟨x, m, y, rfl, htok⟩
    have hshape : TokShape m := isTok_iff_tokShape.mp htok
    simp only [hasTokB, List.any_eq_true, List.mem_range]
    refine ⟨x.length, by simp [List.length_append]; omega, ?_⟩
    have hdrop : (x ++ m ++ y).drop x.length = m ++ y := by
      rw [List.append_assoc, List.drop_append_of_le_length (le_refl _)]
      simp
    rw [hdrop, matchToken_shape_append hshape]
    simp
  · intro h
    simp only [hasTokB, List.any_eq_true, List.mem_range] at h
    obtain ⟨i, -, hsome⟩ := h
    match hmt : matchToken (s.drop i) with
    | none => rw [hmt] at hsome; simp at hsome
    | some (m, r) =>
      obtain ⟨hs, hshape⟩ := matchToken_sound hmt
      exact ⟨s.take i, m, r, by rw [List.append_assoc, ← hs, List.take_append_drop],
        isTok_iff_tokShape.mpr hshape⟩

instance (s : Str) : Decidable (HasTok s) :=
  decidable_of_iff _ hasTok_iff.symm

lemma hasTok_lift {s : Str} (x y : Str) (h : HasTok s) : HasTok (x ++ s ++ y) := by
  obtain ⟨a, m, b, rfl, htok⟩ := h
  exact ⟨x ++ a, m, b ++ y, by simp, htok⟩

lemma not_hasTok_cons {c : Char} {s : Str} (h : ¬ HasTok (c :: s)) : ¬ HasTok s := by
  intro hs
  exact h (by simpa using hasTok_lift [c] [] hs)

lemma hasTok_of_tok_sub {x y t : Str} (ht : isTok t) : HasTok (x ++ t ++ y) :=
  ⟨x, t, y, rfl, ht⟩

/-- In safe text (no token-shaped substring), no suffix position starts a
match, even when the text is followed by `[`-headed (or empty) material.
This is the key locality fact: a token match that begins inside safe text
would either lie entirely inside it (contradicting safety) or contain a
`[` beyond its leading character (impossible for the token pattern). -/
lemma matchToken_none_in_safe {s p y Q : Str} (hs : ¬ HasTok s) (hdecomp : s = p ++ y)
    (hy : y ≠ []) (hQ : Q = [] ∨ ∃ w, Q = '[' :: w) : matchToken (y ++ Q) = none := by
  match hmt : matchToken (y ++ Q) with
  | none => rfl
  | some (m, r) =>
    exfalso
    obtain ⟨heq, hshape⟩ := matchToken_sound hmt
    have htok : isTok m := isTok_iff_tokShape.mpr hshape
    rcases List.append_eq_append_iff.mp heq.symm with ⟨a2, ha, -⟩ | ⟨c2, hc, hQr⟩
    · -- y = m ++ a2 : the match lies inside s
      exact hs ⟨p, m, a2, by rw [hdecomp, ha, List.append_assoc], htok⟩
    · -- m = y ++ c2
      cases c2 with
      | nil =>
        exact hs ⟨p, m, [], by rw [hdecomp, hc]; simp, htok⟩
      | cons c0 c' =>
        rcases hQ with rfl | ⟨w, rfl⟩
        · simp at hQr
        · have hc0 : c0 = '[' := by
            have := congrArg List.head? hQr
            simpa using this.symm
          subst hc0
          exact tokShape_no_lbracket_tail hshape hc hy (by simp) rfl

lemma findTokens_skip {seg Q : Str} (hseg : ¬ HasTok seg)
    (hQ : Q = [] ∨ ∃ w, Q = '[' :: w) : findTokens (seg ++ Q) = findTokens Q := by
  induction seg with
  | nil => simp
  | cons c seg' ih =>
    have hnone : matchToken ((c :: seg') ++ Q) = none :=
      matchToken_none_in_safe hseg (p := []) rfl (by simp) hQ
    rw [List.cons_append] at hnone ⊢
    rw [findTokens_cons_none hnone]
    exact ih (not_hasTok_cons hseg)

lemma findTokens_nil_of_safe {s : Str} (h : ¬ HasTok s) : findTokens s = [] := by
  have := findTokens_skip h (Or.inl rfl)
  simpa [findTokens_nil] using this

lemma findTokens_tok_cons {t Q : Str} (ht : TokShape t) :
    findTokens (t ++ Q) = t :: findTokens Q := by
  obtain ⟨t0, rfl⟩ := tokShape_head ht
  have := matchToken_shape_append ht Q
  rw [List.cons_append] at this ⊢
  rw [findTokens_cons_some this]

/-- `pat` is an initial segment of `s`. -/
def begins : Str → Str → Bool
  | [], _ => true
  | _ :: _, [] => false
  | p :: ps, c :: cs => p == c && begins ps cs

lemma begins_self_append (pat t : Str) : begins pat (pat ++ t) = true := by
  induction pat with
  | nil => rfl
  | cons p ps ih => simp [begins, ih]

lemma begins_mp {pat s : Str} (h : begins pat s = true) : ∃ t, s = pat ++ t := by
  induction pat generalizing s with
  | nil => exact ⟨s, rfl⟩
  | cons p ps ih =>
    match s with
    | [] => simp [begins] at h
    | c :: cs =>
      simp only [begins, Bool.and_eq_true, beq_iff_eq] at h
      obtain ⟨t, ht⟩ := ih h.2
      exact ⟨t, by simp [h.1, ht]⟩

/-- Python `str.replace`: replace every non-overlapping occurrence of
`old`, scanning left to right.  (Our `old` is always a nonempty token;
for `old = []` this returns `s` unchanged, which differs from Python's
empty-pattern interleaving but is never exercised.) -/
def replaceAll (old new : Str) : Str → Str
  | [] => []
  | c :: rest =>
    if begins old (c :: rest) = true ∧ old ≠ [] then
      new ++ replaceAll old new ((c :: rest).drop old.length)
    else
      c :: replaceAll old new rest
termination_by s => s.length
decreasing_by
  · rename_i hcond
    have : 1 ≤ old.length := by
      cases hond : old with
      | nil => exact absurd hond hcond.2
      | cons o os => simp
    simp only [List.length_drop, List.length_cons]
    omega
  · simp

lemma replaceAll_nil (old new : Str) : replaceAll old new [] = [] := by
  rw [replaceAll]

lemma replaceAll_cons_pos {old new : Str} {c : Char} {rest : Str}
    (h : begins old (c :: rest) = true) (hne : old ≠ []) :
    replaceAll old new (c :: rest) = new ++ replaceAll old new ((c :: rest).drop old.length) := by
  rw [replaceAll, if_pos ⟨h, hne⟩]

lemma replaceAll_cons_neg {old new : Str} {c : Char} {rest : Str}
    (h : ¬ (begins old (c :: rest) = true ∧ old ≠ [])) :
    replaceAll old new (c :: rest) = c :: replaceAll old new rest := by
  rw [replaceAll, if_neg h]

lemma replaceAll_of_not_occurs {old new s : Str} (h : ¬ Occurs old s) :
    replaceAll old new s = s := by
  induction s with
  | nil => exact replaceAll_nil old new
  | cons c rest ih =>
    have hb : ¬ (begins old (c :: rest) = true ∧ old ≠ []) := by
      rintro ⟨hbeg, -⟩
      obtain ⟨t, ht⟩ := begins_mp hbeg
      exact h ⟨[], t, by simp [ht]⟩
    rw [replaceAll_cons_neg hb]
    have hrest : ¬ Occurs old rest := by
      rintro ⟨x, y, rfl⟩
      exact h ⟨c :: x, y, rfl⟩
    rw [ih hrest]

/-- Replacing a token occurrence at a known boundary: if the token does not
occur in the prefix `P`, the scan walks over `P` untouched, replaces the
occurrence, and continues after it.  A match cannot begin strictly inside
`P` and end in the token, since the token's `[` head would then be an
interior character of the match. -/
lemma replaceAll_boundary {t v P Q : Str} (ht : TokShape t) (hP : ¬ Occurs t P) :
    replaceAll t v (P ++ t ++ Q) = P ++ v ++ replaceAll t v Q := by
  induction P with
  | nil =>
    obtain ⟨t0, ht0⟩ := tokShape_head ht
    simp only [List.nil_append]
    have hb : begins t (t ++ Q) = true := begins_self_append t Q
    have hne : t ≠ [] := tokShape_ne_nil ht
    rw [show t ++ Q = t.headI :: (t.tail ++ Q) by rw [ht0]; simp] at hb ⊢
    rw [replaceAll_cons_pos hb hne]
    congr 1
    congr 1
    rw [show t.headI :: (t.tail ++ Q) = t ++ Q by rw [ht0]; simp]
    rw [List.drop_append_of_le_length (le_refl _)]
    simp
  | cons p P' ih =>
    have hb : ¬ (begins t (p :: (P' ++ t ++ Q)) = true ∧ t ≠ []) := by
      rintro ⟨hbeg, -⟩
      obtain ⟨u, hu⟩ := begins_mp hbeg
      rcases List.append_eq_append_iff.mp (hu.symm.trans (by simp) :
          t ++ u = (p :: P') ++ (t ++ Q)) with ⟨a2, ha, -⟩ | ⟨c2, hc, hb2⟩
      · exact hP ⟨[], a2, by rw [ha]; simp⟩
      · cases c2 with
        | nil => exact hP ⟨[], [], by rw [hc]; simp⟩
        | cons c0 c' =>
          have hc0 : c0 = '[' := by
            obtain ⟨t0, ht0⟩ := tokShape_head ht
            have : (t ++ Q).head? = some '[' := by rw [ht0]; simp
            rw [hb2] at this
            simpa using this
          subst hc0
          exact tokShape_no_lbracket_tail ht hc (by simp) (by simp) rfl

    have hP' : ¬ Occurs t P' := by
      rintro ⟨x, y, rfl⟩
      exact hP ⟨p :: x, y, rfl⟩
    calc replaceAll t v ((p :: P') ++ t ++ Q)
        = replaceAll t v (p :: (P' ++ t ++ Q)) := by simp
      _ = p :: replaceAll t v (P' ++ t ++ Q) := replaceAll_cons_neg hb
      _ = p :: (P' ++ v ++ replaceAll t v Q) := by rw [ih hP']
      _ = (p :: P') ++ v ++ replaceAll t v Q := by simp

/-- Decomposition of an occurrence in an append: inside the left part,
inside the right part, or spanning the boundary. -/
lemma occurs_append {t a b : Str} (h : Occurs t (a ++ b)) :
    Occurs t a ∨ Occurs t b ∨
      ∃ y z, t = y ++ z ∧ y ≠ [] ∧ z ≠ [] ∧ (∃ a', a = a' ++ y) ∧ (∃ b', b = z ++ b') := by
  obtain ⟨x, w, hxw⟩ := h
  induction x generalizing a with
  | nil =>
    simp only [List.nil_append] at hxw
    rcases List.append_eq_append_iff.mp (hxw.symm.trans (by simp) :
        t ++ w = a ++ b) with ⟨a2, ha, -⟩ | ⟨c2, hc, hb2⟩
    · exact Or.inl ⟨[], a2, by rw [ha]; simp⟩
    · cases c2 with
      | nil => exact Or.inl ⟨[], [], by rw [hc]; simp⟩
      | cons c0 c' =>
        cases a with
        | nil =>
          right; left
          exact ⟨[], w, by simpa using hxw⟩
        | cons a0 a' =>
          right; right
          exact ⟨a0 :: a', c0 :: c', hc, by simp, by simp, ⟨[], rfl⟩, ⟨w, hb2⟩⟩
  | cons x0 x' ih =>
    cases a with
    | nil =>
      right; left
      exact ⟨x0 :: x', w, by simpa using hxw⟩
    | cons a0 a' =>
      have hxw' : a' ++ b = x' ++ t ++ w := by
        have := hxw
        simp only [List.cons_append, List.cons.injEq] at this
        exact this.2
      rcases ih hxw' with hin | hin | ⟨y, z, hyz, hy, hz, ⟨a2, ha⟩, hb2⟩
      · obtain ⟨u, v2, huv⟩ := hin
        exact Or.inl ⟨a0 :: u, v2, by rw [huv]; simp⟩
      · exact Or.inr (Or.inl hin)
      · exact Or.inr (Or.inr ⟨y, z, hyz, hy, hz, ⟨a0 :: a2, by rw [ha]; simp⟩, hb2⟩)

/-- One anonymized span: the safe text before it (`seg`), the token
substituted for it (`tok`), the original sensitive value (`val`), and
whether its vault record is still retrievable at deanonymization time
(`live`). -/
structure Chunk where
  seg : Str
  tok : Str
  val : Str
  live : Bool

/-- The anonymized text: every span replaced by its token. -/
def flatT : List Chunk → Str → Str
  | [], fin => fin
  | c :: cs, fin => c.seg ++ c.tok ++ flatT cs fin

/-- The original text: every span holds its value. -/
def flatO : List Chunk → Str → Str
  | [], fin => fin
  | c :: cs, fin => c.seg ++ c.val ++ flatO cs fin

/-- The partially restored text: live tokens restored to their value,
dead tokens left in place. -/
def flatM : List Chunk → Str → Str
  | [], fin => fin
  | c :: cs, fin => c.seg ++ (if c.live then c.val else c.tok) ++ flatM cs fin

lemma flatT_out (cs : List Chunk) (X : Str) : flatT cs X = flatT cs [] ++ X := by
  induction cs with
  | nil => simp [flatT]
  | cons c cs ih => simp [flatT, ih]

lemma flatO_out (cs : List Chunk) (X : Str) : flatO cs X = flatO cs [] ++ X := by
  induction cs with
  | nil => simp [flatO]
  | cons c cs ih => simp [flatO, ih]

lemma flatM_out (cs : List Chunk) (X : Str) : flatM cs X = flatM cs [] ++ X := by
  induction cs with
  | nil => simp [flatM]
  | cons c cs ih => simp [flatM, ih]

lemma flatO_append (a b : List Chunk) (X : Str) :
    flatO (a ++ b) X = flatO a (flatO b X) := by
  induction a with
  | nil => simp [flatO]
  | cons c a ih => simp [flatO, ih]

lemma flatM_append (a b : List Chunk) (X : Str) :
    flatM (a ++ b) X = flatM a (flatM b X) := by
  induction a with
  | nil => simp [flatM]
  | cons c a ih => simp [flatM, ih]

/-- Mark every chunk as dead: then the mixed render is the anonymized
text. -/
def deadAll (cs : List Chunk) : List Chunk := cs.map fun c => ⟨c.seg, c.tok, c.val, false⟩

lemma flatT_eq_flatM_dead (cs : List Chunk) (fin : Str) :
    flatT cs fin = flatM (deadAll cs) fin := by
  induction cs with
  | nil => simp [flatT, flatM, deadAll]
  | cons c cs ih =>
    simp only [deadAll, List.map_cons, flatT, flatM] at ih ⊢
    simp [ih]

lemma flatO_deadAll (cs : List Chunk) (fin : Str) :
    flatO (deadAll cs) fin = flatO cs fin := by
  induction cs with
  | nil => simp [flatO, deadAll]
  | cons c cs ih =>
    simp only [deadAll, List.map_cons, flatO] at ih ⊢
    rw [ih]

lemma map_tok_deadAll (cs : List Chunk) :
    (deadAll cs).map Chunk.tok = cs.map Chunk.tok := by
  induction cs with
  | nil => rfl
  | cons c cs ih =>
    simp only [deadAll, List.map_cons] at ih ⊢
    rw [ih]

/-- `findTokens` on an anonymized text recovers exactly the substituted
tokens, in order, when the interleaved safe text contains no token-shaped
substring. -/
lemma findTokens_flatT {cs : List Chunk} {fin : Str}
    (htoks : ∀ c ∈ cs, TokShape c.tok)
    (hsegs : ∀ c ∈ cs, ¬ HasTok c.seg) (hfin : ¬ HasTok fin) :
    findTokens (flatT cs fin) = cs.map Chunk.tok := by
  induction cs with
  | nil => simpa [flatT] using findTokens_nil_of_safe hfin
  | cons c cs ih =>
    have hc : TokShape c.tok := htoks c (by simp)
    obtain ⟨t0, ht0⟩ := tokShape_head hc
    have h1 : flatT (c :: cs) fin = c.seg ++ (c.tok ++ flatT cs fin) := by
      simp [flatT]
    rw [h1, findTokens_skip (hsegs c (by simp)) (Or.inr ⟨t0 ++ flatT cs fin, by rw [ht0]; simp⟩),
      findTokens_tok_cons hc, ih (fun x hx => htoks x (by simp [hx]))
      (fun x hx => hsegs x (by simp [hx]))]
    simp

lemma tokShape_head? {t : Str} (ht : TokShape t) : t.head? = some '[' := by
  obtain ⟨t0, rfl⟩ := tokShape_head ht
  simp

/-- A token occurring inside another token is that whole token. -/
lemma tok_eq_of_occurs_in_tok {t u : Str} (ht : TokShape t) (hu : TokShape u)
    (h : Occurs t u) : t = u := by
  obtain ⟨x, y, hxy⟩ := h
  cases x with
  | nil =>
    have hhu : u = t ++ y := by simpa using hxy
    exact @tokShape_eq_of_common_front t u y [] ht hu (by rw [hhu]; simp)
  | cons x0 x' =>
    exfalso
    obtain ⟨t0, ht0⟩ := tokShape_head ht
    have : u = (x0 :: x') ++ ('[' :: (t0 ++ y)) := by
      rw [hxy, ht0]; simp
    exact tokShape_no_lbracket_tail hu this (by simp) (by simp) rfl

/-- A token cannot end strictly inside another token either: `t = u ++ z`
with `z ≠ []` is impossible for two tokens. -/
lemma tok_not_extends {t u z : Str} (ht : TokShape t) (hu : TokShape u)
    (heq : t = u ++ z) (hz : z ≠ []) : False := by
  obtain ⟨run, h1, h2, h3, h4, h5, h6, h7, h8, hshape, -⟩ := hu
  have : t = ('[' :: run ++ [h1, h2, h3, h4, h5, h6, h7, h8]) ++ ']' :: z := by
    rw [heq, hshape]; simp
  exact hz (tokShape_rbracket_last ht this)

/-- Central non-occurrence lemma: a token `t` distinct from all tokens of
`done` does not occur in the mixed render `acc ++ flatM done [] ++ s`,
provided the corresponding fully original text `acc ++ flatO done [] ++ s`
has no token-shaped substring.  Restored values re-join their neighbouring
segments into contiguous pieces of the original, so the single global
safety hypothesis suffices. -/
lemma not_occurs_flatM {t : Str} (ht : TokShape t) :
    ∀ (done : List Chunk) (acc s : Str),
      (∀ c ∈ done, TokShape c.tok ∧ t ≠ c.tok) →
      ¬ HasTok (acc ++ flatO done [] ++ s) →
      ¬ Occurs t (acc ++ flatM done [] ++ s) := by
  intro done
  induction done with
  | nil =>
    intro acc s _ hsafe hocc
    obtain ⟨x, y, hxy⟩ := hocc
    refine hsafe ⟨x, t, y, ?_, isTok_iff_tokShape.mpr ht⟩
    simpa [flatO, flatM] using hxy
  | cons c done' ih =>
    intro acc s hdone hsafe hocc
    by_cases hlive : c.live
    · -- restored value: merge into the accumulated safe text
      have hre : acc ++ flatM (c :: done') [] ++ s
          = (acc ++ c.seg ++ c.val) ++ flatM done' [] ++ s := by
        rw [show flatM (c :: done') [] = c.seg ++ c.val ++ flatM done' [] by
          simp [flatM, hlive]]
        simp
      rw [hre] at hocc
      refine ih (acc ++ c.seg ++ c.val) s
        (fun x hx => hdone x (by simp [hx])) ?_ hocc
      intro hbad
      refine hsafe ?_
      have hrw2 : acc ++ flatO (c :: done') [] ++ s
          = (acc ++ c.seg ++ c.val) ++ flatO done' [] ++ s := by
        rw [show flatO (c :: done') [] = c.seg ++ c.val ++ flatO done' [] from rfl]
        simp
      rw [hrw2]
      exact hbad
    · -- dead token kept in place
      have hct : TokShape c.tok := (hdone c (by simp)).1
      have hre : acc ++ flatM (c :: done') [] ++ s
          = (acc ++ c.seg) ++ (c.tok ++ (flatM done' [] ++ s)) := by
        rw [show flatM (c :: done') [] = c.seg ++ c.tok ++ flatM done' [] by
          simp [flatM, hlive]]
        simp
      rw [hre] at hocc
      have hsafe' : ¬ HasTok (acc ++ c.seg) := by
        intro hbad
        refine hsafe ?_
        have h2 := hasTok_lift [] (c.val ++ flatO done' [] ++ s) hbad
        have hrw3 : acc ++ flatO (c :: done') [] ++ s
            = [] ++ (acc ++ c.seg) ++ (c.val ++ flatO done' [] ++ s) := by
          rw [show flatO (c :: done') [] = c.seg ++ c.val ++ flatO done' [] from rfl]
          simp
        rw [hrw3]
        exact h2
      rcases occurs_append hocc with hin | hin | ⟨y, z, hyz, hy, hz, ⟨a2, ha⟩, ⟨b2, hb⟩⟩
      · obtain ⟨x, y, hxy⟩ := hin
        exact hsafe' ⟨x, t, y, hxy, isTok_iff_tokShape.mpr ht⟩
      · rcases occurs_append hin with hin2 | hin2 |
          ⟨y, z, hyz, hy, hz, ⟨a2, ha⟩, ⟨b2, hb⟩⟩
        · exact absurd (tok_eq_of_occurs_in_tok ht hct hin2) (hdone c (by simp)).2
        · -- occurrence strictly after the kept token
          have hocc2 : Occurs t ([] ++ flatM done' [] ++ s) := by simpa using hin2
          refine ih [] s (fun x hx => hdone x (by simp [hx])) ?_ hocc2
          intro hbad
          refine hsafe ?_
          have h2 := hasTok_lift (acc ++ c.seg ++ c.val) [] hbad
          have hrw : acc ++ flatO (c :: done') [] ++ s
              = (acc ++ c.seg ++ c.val) ++ ([] ++ flatO done' [] ++ s) ++ [] := by
            rw [show flatO (c :: done') [] = c.seg ++ c.val ++ flatO done' [] from rfl]
            simp
          rw [hrw]
          exact h2
        · -- spanning from inside the kept token into what follows
          cases a2 with
          | nil =>
            simp only [List.nil_append] at ha
            exact tok_not_extends ht hct (by rw [hyz, ← ha]) hz
          | cons a0 a' =>
            have hhead : y.head? = some '[' := by
              have := tokShape_head? ht
              rw [hyz] at this
              cases y with
              | nil => exact absurd rfl hy
              | cons y0 y' => simpa using this
            exact tokShape_no_lbracket_tail hct ha (by simp) hy hhead
      · -- spanning from the safe text into the kept token
        have hhead : z.head? = some '[' := by
          have := congrArg List.head? hb
          cases z with
          | nil => exact absurd rfl hz
          | cons z0 z' =>
            rw [show (c.tok ++ (flatM done' [] ++ s)).head? = some '[' by
              obtain ⟨t0, ht0⟩ := tokShape_head hct
              rw [ht0]; simp] at this
            simpa using this.symm
        exact tokShape_no_lbracket_tail ht hyz hy hz hhead

/-- The deanonymization loop over a token list: for each token, on a vault
hit replace every occurrence by the recovered value, on a miss (expired,
evicted, never issued) leave the text unchanged. -/
def restoreFold (vget : Str → Option Str) (toks : List Str) (text : Str) : Str :=
  toks.foldl (fun t tok =>
    match vget tok with
    | some v => replaceAll tok v t
    | none => t) text

lemma restoreFold_nil (vget : Str → Option Str) (text : Str) :
    restoreFold vget [] text = text := rfl

lemma restoreFold_cons_some {vget : Str → Option Str} {tok v : Str}
    (toks : List Str) (text : Str) (h : vget tok = some v) :
    restoreFold vget (tok :: toks) text = restoreFold vget toks (replaceAll tok v text) := by
  simp [restoreFold, h]

lemma restoreFold_cons_none {vget : Str → Option Str} {tok : Str}
    (toks : List Str) (text : Str) (h : vget tok = none) :
    restoreFold vget (tok :: toks) text = restoreFold vget toks text := by
  simp [restoreFold, h]

lemma nodup_split {done todo' : List Chunk} {c : Chunk}
    (h : ((done ++ c :: todo').map Chunk.tok).Nodup) :
    (∀ ch ∈ done, c.tok ≠ ch.tok) ∧ c.tok ∉ todo'.map Chunk.tok ∧
      (((done ++ [c]) ++ todo').map Chunk.tok).Nodup := by
  have h' : (done.map Chunk.tok ++ (c.tok :: todo'.map Chunk.tok)).Nodup := by
    simpa using h
  rcases List.nodup_append.mp h' with ⟨h1, h2, hdisj⟩
  refine ⟨?_, (List.nodup_cons.mp h2).1, by simpa using h⟩
  intro ch hch heq
  exact hdisj (List.mem_map_of_mem Chunk.tok hch) (by rw [← heq]; simp)

lemma mem_deadAll {ch : Chunk} {cs : List Chunk} (h : ch ∈ deadAll cs) :
    ∃ o ∈ cs, ch.tok = o.tok := by
  simp only [deadAll, List.mem_map] at h
  obtain ⟨o, ho, rfl⟩ := h
  exact ⟨o, ho, rfl⟩

lemma flatM_snoc (done : List Chunk) (c : Chunk) (X : Str) :
    flatM (done ++ [c]) X = flatM done [] ++ c.seg ++ (if c.live then c.val else c.tok) ++ X := by
  induction done with
  | nil => simp [flatM]
  | cons d done' ih => simp [flatM, ih]

/-- Main restoration lemma: running the per-token replacement loop over the
tokens of an anonymized text restores each live token to its value and
leaves each dead token literal in place.  `done` are the chunks already
processed (the generalized prefix of the induction). -/
lemma restore_flatT (vget : Str → Option Str) :
    ∀ (todo done : List Chunk) (fin : Str),
      (∀ c ∈ done ++ todo, TokShape c.tok) →
      ((done ++ todo).map Chunk.tok).Nodup →
      ¬ HasTok (flatO (done ++ todo) fin) →
      (∀ c ∈ todo, vget c.tok = if c.live then some c.val else none) →
      restoreFold vget (todo.map Chunk.tok) (flatM done (flatT todo fin))
        = flatM done (flatM todo fin) := by
  intro todo
  induction todo with
  | nil =>
    intro done fin _ _ _ _
    simp [restoreFold_nil, flatT, flatM]
  | cons c todo' ih =>
    intro done fin htoks hnodup hsafe hvget
    have hct : TokShape c.tok := htoks c (by simp)
    obtain ⟨hne_done, hnotin, hnodup'⟩ := nodup_split hnodup
    -- global original text, decomposed around chunk c
    have hglobal : flatO (done ++ c :: todo') fin
        = flatO done [] ++ (c.seg ++ (c.val ++ flatO todo' fin)) := by
      rw [flatO_append, flatO_out done]
      simp [flatO]
    -- safety of the prefix up to and including c.seg
    have hsafeP : ¬ HasTok (flatO done [] ++ c.seg) := by
      intro hbad
      refine hsafe ?_
      rw [hglobal]
      have h2 := hasTok_lift [] (c.val ++ flatO todo' fin) hbad
      simpa using h2
    -- safety of the suffix after c
    have hsafeQ : ¬ HasTok (flatO todo' fin) := by
      intro hbad
      refine hsafe ?_
      rw [hglobal]
      have h2 := hasTok_lift (flatO done [] ++ (c.seg ++ c.val)) [] hbad
      simpa using h2
    -- the current token occurs neither in the processed prefix ...
    have hPnotocc : ¬ Occurs c.tok (flatM done [] ++ c.seg) := by
      have := not_occurs_flatM hct done [] c.seg
        (fun ch hch => ⟨htoks ch (by simp [hch]), hne_done ch hch⟩)
        (by simpa using hsafeP)
      simpa using this
    -- ... nor in the not-yet-processed suffix
    have hQnotocc : ¬ Occurs c.tok (flatT todo' fin) := by
      have hsafe2 : ¬ HasTok ([] ++ flatO (deadAll todo') [] ++ fin) := by
        rw [List.nil_append, ← flatO_out, flatO_deadAll]
        exact hsafeQ
      have := not_occurs_flatM hct (deadAll todo') [] fin
        (fun ch hch => by
          obtain ⟨o, ho, htokeq⟩ := mem_deadAll hch
          refine ⟨htokeq ▸ htoks o (by simp [ho]), ?_⟩
          rw [htokeq]
          intro heq
          exact hnotin (heq ▸ List.mem_map_of_mem Chunk.tok ho))
        hsafe2
      rw [flatT_eq_flatM_dead todo' fin, flatM_out]
      simpa using this
    -- the anonymized text, decomposed at the occurrence of c.tok
    have hT : flatM done (flatT (c :: todo') fin)
        = (flatM done [] ++ c.seg) ++ c.tok ++ flatT todo' fin := by
      rw [flatM_out]
      simp [flatT]
    by_cases hlive : c.live
    · have hvc : vget c.tok = some c.val := by
        have := hvget c (by simp)
        rwa [if_pos hlive] at this
      rw [show ((c :: todo').map Chunk.tok) = c.tok :: todo'.map Chunk.tok by simp,
        restoreFold_cons_some _ _ hvc, hT,
        replaceAll_boundary hct hPnotocc, replaceAll_of_not_occurs hQnotocc]
      have hstep : flatM done [] ++ c.seg ++ c.val ++ flatT todo' fin
          = flatM (done ++ [c]) (flatT todo' fin) := by
        rw [flatM_snoc]
        simp [hlive]
      rw [hstep, ih (done ++ [c]) fin (by simpa using htoks) hnodup'
        (by rw [show (done ++ [c]) ++ todo' = done ++ c :: todo' by simp]; exact hsafe)
        (fun x hx => hvget x (by simp [hx]))]
      rw [flatM_snoc, flatM_out done (flatM (c :: todo') fin)]
      simp [flatM, hlive]
    · have hvc : vget c.tok = none := by
        have := hvget c (by simp)
        rwa [if_neg hlive] at this
      rw [show ((c :: todo').map Chunk.tok) = c.tok :: todo'.map Chunk.tok by simp,
        restoreFold_cons_none _ _ hvc]
      have hstep : flatM done (flatT (c :: todo') fin)
          = flatM (done ++ [c]) (flatT todo' fin) := by
        rw [hT, flatM_snoc]
        simp [hlive]
      rw [hstep, ih (done ++ [c]) fin (by simpa using htoks) hnodup'
        (by rw [show (done ++ [c]) ++ todo' = done ++ c :: todo' by simp]; exact hsafe)
        (fun x hx => hvget x (by simp [hx]))]
      rw [flatM_snoc, flatM_out done (flatM (c :: todo') fin)]
      simp [flatM, hlive]

/-! ## Configuration (src/config.py) -/

/-- The `Settings` fields (src/config.py) used by the verified code paths,
with their declared defaults (`max_revision_count=3`, `recursion_limit=15`,
`pii_confidence_threshold=0.6`, `pii_vault_ttl=3600`).  Confidence scores
are modelled in `ℚ`. -/
structure Settings where
  max_revision_count : Nat := 3
  recursion_limit : Nat := 15
  pii_confidence_threshold : ℚ := 6 / 10
  pii_vault_ttl : Nat := 3600

def defaultSettings : Settings := {}

/-- The pydantic bounds declared on the fields: `max_revision_count` has
`ge=1, le=10`; `recursion_limit` has `ge=5, le=50`;
`pii_confidence_threshold` has `ge=0.0, le=1.0`; `pii_vault_ttl` has
`ge=60`. -/
def Settings.Valid (st : Settings) : Prop :=
  1 ≤ st.max_revision_count ∧ st.max_revision_count ≤ 10 ∧
  5 ≤ st.recursion_limit ∧ st.recursion_limit ≤ 50 ∧
  0 ≤ st.pii_confidence_threshold ∧ st.pii_confidence_threshold ≤ 1 ∧
  60 ≤ st.pii_vault_ttl

/-! ## PII manager (src/security.py) -/

/-- One presidio `RecognizerResult`: a detected span `[start, stop)` with
its confidence score and entity type.  (`end` is a Lean keyword, hence
`stop`.) -/
structure RecognizerResult where
  start : Nat
  stop : Nat
  score : ℚ
  entity_type : Str

/-- One vault record as stored by `anonymize`: `value` is the
base64-encoded Fernet encryption of the sensitive span (the crypto codec
is abstracted as a function), plus entity type and trace id;
`stored_at`/`ttl` model the Redis `SETEX` expiry clock. -/
structure VaultRecord where
  value : Str
  etype : Str
  trace_id : Str
  stored_at : Nat
  ttl : Nat

abbrev Vault := List (Str × VaultRecord)

/-- Redis `GET` at time `now` of a key written with `SETEX`: the record is
retrievable only strictly before `stored_at + ttl`. -/
def vaultGet (vault : Vault) (key : Str) (now : Nat) : Option VaultRecord :=
  match vault.find? (fun p => p.1 == key) with
  | some p => if now < p.2.stored_at + p.2.ttl then some p.2 else none
  | none => none

/-- The Redis key `f"pii:{token}"`. -/
def piiKey (tok : Str) : Str := 'p' :: 'i' :: 'i' :: ':' :: tok

lemma piiKey_inj {a b : Str} (h : piiKey a = piiKey b) : a = b := by
  simpa [piiKey] using h

/-- Where a vault write lands: Redis reachable (`redisOk`), Redis client
present but `SETEX` raises (`redisFailing` — the exception is caught and
logged, nothing is stored), or no Redis connection (`mem`: the in-process
fallback dict `self.vault`, keyed by the bare token, no TTL). -/
inductive StoreMode
  | redisOk
  | redisFailing
  | mem

/-- The token minted for a span: `f"[{entity_type}_{token_id}]"` where
`token_id = str(uuid.uuid4())[:8]`. -/
def mkToken (etype id8 : Str) : Str := '[' :: (etype ++ '_' :: (id8 ++ [']']))

/-- Well-formedness of a presidio entity-type name (all are in `[A-Z_]+`:
PHONE_NUMBER, EMAIL_ADDRESS, PERSON, CREDIT_CARD, LOCATION, DATE_TIME,
IBAN_CODE). -/
def WFEntity (e : Str) : Prop := e ≠ [] ∧ ∀ c ∈ e, isUpperU c = true

/-- Well-formedness of a uuid4 8-character id: 8 chars over `[a-f0-9]`. -/
def WFId (s : Str) : Prop := s.length = 8 ∧ ∀ c ∈ s, isHexL c = true

instance (e : Str) : Decidable (WFEntity e) := by unfold WFEntity; infer_instance

instance (s : Str) : Decidable (WFId s) := by unfold WFId; infer_instance

lemma tokShape_mkToken {e i8 : Str} (he : WFEntity e) (hi : WFId i8) :
    TokShape (mkToken e i8) := by
  obtain ⟨a, b, c, d, e5, f, g, h, rfl⟩ :
      ∃ a b c d e5 f g h, i8 = [a, b, c, d, e5, f, g, h] := by
    obtain ⟨hlen, -⟩ := hi
    match i8, hlen with
    | [a, b, c, d, e5, f, g, h], _ => exact ⟨a, b, c, d, e5, f, g, h, rfl⟩
  refine ⟨e ++ ['_'], a, b, c, d, e5, f, g, h, by simp [mkToken], ?_, ?_, ?_, ?_⟩
  · have : 1 ≤ e.length := List.length_pos.mpr he.1
    simp
    omega
  · simp
  · intro c hc
    rcases List.mem_append.mp hc with hc | hc
    · exact he.2 c hc
    · simp only [List.mem_singleton] at hc
      subst hc
      decide
  · obtain ⟨-, hall⟩ := hi
    simp only [List.all_cons, List.all_nil, Bool.and_eq_true]
    exact ⟨hall a (by simp), hall b (by simp), hall c (by simp), hall d (by simp),
      hall e5 (by simp), hall f (by simp), hall g (by simp), hall h (by simp), trivial⟩

/-- Identity of the 8-char id from token equality (the id occupies a fixed
position from the end of the token). -/
lemma mkToken_id_inj {e1 e2 a b : Str} (ha : a.length = 8) (hb : b.length = 8)
    (h : mkToken e1 a = mkToken e2 b) : a = b := by
  have hrev := congrArg List.reverse h
  simp only [mkToken, List.reverse_cons, List.reverse_append] at hrev
  have h2 : (']' :: a.reverse) ++ ('_' :: e1.reverse ++ ['['])
      = (']' :: b.reverse) ++ ('_' :: e2.reverse ++ ['[']) := by
    simpa using hrev
  have hlen : (']' :: a.reverse).length = (']' :: b.reverse).length := by
    simp [ha, hb]
  have := List.append_inj h2 hlen
  have h3 : a.reverse = b.reverse := by
    have h4 := this.1
    simpa using h4
  simpa using congrArg List.reverse h3

/-- Python slice `text[a:b]` on a list of characters. -/
def pySlice (text : Str) (a b : Nat) : Str := (text.take b).drop a

/-- `sorted(results, key=lambda x: x.start, reverse=True)`: a stable sort
into descending start order (ties keep original order); insertion sort is
extensionally the same stable sort. -/
def sortByStartDesc (l : List RecognizerResult) : List RecognizerResult :=
  l.insertionSort fun a b => b.start ≤ a.start

/-- Effect of one vault write attempt on the Redis vault: stored under
`pii:<token>` when Redis is reachable; a raising `SETEX` stores nothing;
with no Redis client the write goes to the fallback dict instead. -/
def redisPush (mode : StoreMode) (tok : Str) (rec0 : VaultRecord) (rv : Vault) : Vault :=
  match mode with
  | .redisOk => (piiKey tok, rec0) :: rv
  | _ => rv

/-- Effect of one vault write attempt on the fallback dict (bare token
key). -/
def memPush (mode : StoreMode) (tok : Str) (rec0 : VaultRecord) (mv : Vault) : Vault :=
  match mode with
  | .mem => (tok, rec0) :: mv
  | _ => mv

/-- The `anonymize` loop over the sorted results (src/security.py:117-160):
skip spans with score below the confidence threshold; otherwise mint a
token `[{entity_type}_{ids i}]`, attempt the vault write (Redis `SETEX`
under `pii:<token>` with TTL; in-memory dict under the bare token when no
Redis; a raising `SETEX` is caught and logged, storing nothing), then
splice the token into the text.  Returns (text, redis vault, fallback
dict, next id index). -/
def anonymizeGo (st : Settings) (enc : Str → Str) (ids : Nat → Str) (now : Nat)
    (mode : StoreMode) (trace : Str) :
    List RecognizerResult → Str → Vault → Vault → Nat → Str × Vault × Vault × Nat
  | [], text, rv, mv, i => (text, rv, mv, i)
  | r :: rest, text, rv, mv, i =>
    if r.score < st.pii_confidence_threshold then
      anonymizeGo st enc ids now mode trace rest text rv mv i
    else
      anonymizeGo st enc ids now mode trace rest
        (text.take r.start ++ mkToken r.entity_type (ids i) ++ text.drop r.stop)
        (redisPush mode (mkToken r.entity_type (ids i))
          ⟨enc (pySlice text r.start r.stop), r.entity_type, trace, now, st.pii_vault_ttl⟩ rv)
        (memPush mode (mkToken r.entity_type (ids i))
          ⟨enc (pySlice text r.start r.stop), r.entity_type, trace, now, st.pii_vault_ttl⟩ mv)
        (i + 1)

/-- `PIIManager.anonymize` (src/security.py:96-162).  The presidio
analyzer's output is supplied as `results`; the Fernet-plus-base64 codec
(`enc`), the uuid stream (`ids`), the wall clock (`now`) and the store
mode are explicit parameters.  An empty text returns immediately without
analyzing. -/
def anonymize (st : Settings) (enc : Str → Str) (ids : Nat → Str) (now : Nat)
    (mode : StoreMode) (trace : Str) (results : List RecognizerResult)
    (text : Str) : Str × Vault × Vault :=
  if text = [] then (text, [], [])
  else
    ((anonymizeGo st enc ids now mode trace (sortByStartDesc results) text [] [] 0).1,
     (anonymizeGo st enc ids now mode trace (sortByStartDesc results) text [] [] 0).2.1,
     (anonymizeGo st enc ids now mode trace (sortByStartDesc results) text [] [] 0).2.2.1)

/-- The per-token vault lookup performed by `deanonymize`: Redis `GET` of
`pii:<token>` (TTL-checked) when a Redis client exists, else the fallback
dict lookup (bare token key, no expiry). -/
def deanonLookup (mode : StoreMode) (rv mv : Vault) (now : Nat) (tok : Str) : Option Str :=
  match mode with
  | .mem => (mv.find? fun p => p.1 == tok).map fun p => p.2.value
  | _ => (vaultGet rv (piiKey tok) now).map fun p => p.value

/-- `PIIManager.deanonymize` (src/security.py:164-203): `re.findall` the
token pattern, then for each found token look it up; on a hit decrypt and
`str.replace` all its occurrences; on a miss leave the text unchanged and
record a warning.  Returns the restored text and the missed tokens (the
logged warnings). -/
def deanonymizeWW (dec : Str → Str) (lookup : Str → Option Str) (text : Str) :
    Str × List Str :=
  (findTokens text).foldl
    (fun acc tok =>
      match lookup tok with
      | some v => (replaceAll tok (dec v) acc.1, acc.2)
      | none => (acc.1, acc.2 ++ [tok]))
    (text, [])

def deanonymize (dec : Str → Str) (lookup : Str → Option Str) (text : Str) : Str :=
  (deanonymizeWW dec lookup text).1

lemma deanonymizeWW_foldPair (dec : Str → Str) (lookup : Str → Option Str) :
    ∀ (toks : List Str) (T : Str) (w : List Str),
      toks.foldl
        (fun acc tok =>
          match lookup tok with
          | some v => (replaceAll tok (dec v) acc.1, acc.2)
          | none => (acc.1, acc.2 ++ [tok])) (T, w)
        = (restoreFold (fun tok => (lookup tok).map dec) toks T,
           w ++ toks.filter fun t => (lookup t).isNone) := by
  intro toks
  induction toks with
  | nil => intro T w; simp [restoreFold_nil]
  | cons tok toks ih =>
    intro T w
    match hl : lookup tok with
    | some v =>
      rw [List.foldl_cons]
      simp only [hl]
      rw [ih]
      rw [restoreFold_cons_some toks T (show (fun tok => (lookup tok).map dec) tok
        = some (dec v) by simp [hl])]
      simp [List.filter_cons, hl]
    | none =>
      rw [List.foldl_cons]
      simp only [hl]
      rw [ih]
      rw [restoreFold_cons_none toks T (show (fun tok => (lookup tok).map dec) tok
        = none by simp [hl])]
      simp [List.filter_cons, hl]

lemma deanonymizeWW_eq (dec : Str → Str) (lookup : Str → Option Str) (text : Str) :
    deanonymizeWW dec lookup text
      = (restoreFold (fun tok => (lookup tok).map dec) (findTokens text) text,
         (findTokens text).filter fun t => (lookup t).isNone) := by
  rw [deanonymizeWW, deanonymizeWW_foldPair]
  simp

/-! ## Shape of the anonymized output -/

/-- Spans listed in descending start order, pairwise disjoint, nonempty,
all contained in `[0, n)`. -/
def WFSpans : List RecognizerResult → Nat → Prop
  | [], _ => True
  | r :: rest, n => r.stop ≤ n ∧ r.start < r.stop ∧ WFSpans rest r.start

lemma anonymizeGo_nil (st : Settings) (enc : Str → Str) (ids : Nat → Str) (now : Nat)
    (mode : StoreMode) (trace : Str) (text : Str) (rv mv : Vault) (i : Nat) :
    anonymizeGo st enc ids now mode trace [] text rv mv i = (text, rv, mv, i) := rfl

lemma anonymizeGo_cons_skip {st : Settings} {r : RecognizerResult}
    (enc : Str → Str) (ids : Nat → Str) (now : Nat) (mode : StoreMode) (trace : Str)
    (rest : List RecognizerResult) (text : Str) (rv mv : Vault) (i : Nat)
    (hscore : r.score < st.pii_confidence_threshold) :
    anonymizeGo st enc ids now mode trace (r :: rest) text rv mv i
      = anonymizeGo st enc ids now mode trace rest text rv mv i := by
  rw [anonymizeGo, if_pos hscore]

lemma anonymizeGo_cons_keep {st : Settings} {r : RecognizerResult}
    (enc : Str → Str) (ids : Nat → Str) (now : Nat) (mode : StoreMode) (trace : Str)
    (rest : List RecognizerResult) (text : Str) (rv mv : Vault) (i : Nat)
    (hscore : ¬ r.score < st.pii_confidence_threshold) :
    anonymizeGo st enc ids now mode trace (r :: rest) text rv mv i
      = anonymizeGo st enc ids now mode trace rest
          (text.take r.start ++ mkToken r.entity_type (ids i) ++ text.drop r.stop)
          (redisPush mode (mkToken r.entity_type (ids i))
            ⟨enc (pySlice text r.start r.stop), r.entity_type, trace, now, st.pii_vault_ttl⟩ rv)
          (memPush mode (mkToken r.entity_type (ids i))
            ⟨enc (pySlice text r.start r.stop), r.entity_type, trace, now, st.pii_vault_ttl⟩ mv)
          (i + 1) := by
  rw [anonymizeGo, if_neg hscore]

/-- The loop is local: spans confined to the prefix `a` never touch an
appended suffix `b`. -/
lemma anonymizeGo_append (st : Settings) (enc : Str → Str) (ids : Nat → Str)
    (now : Nat) (mode : StoreMode) (trace : Str) :
    ∀ (rs : List RecognizerResult) (a b : Str) (rv mv : Vault) (i n : Nat),
      WFSpans rs n → n ≤ a.length →
      anonymizeGo st enc ids now mode trace rs (a ++ b) rv mv i
        = ((anonymizeGo st enc ids now mode trace rs a rv mv i).1 ++ b,
           (anonymizeGo st enc ids now mode trace rs a rv mv i).2) := by
  intro rs
  induction rs with
  | nil => intro a b rv mv i n _ _; simp [anonymizeGo_nil]
  | cons r rest ih =>
    intro a b rv mv i n hwf hna
    obtain ⟨hstop, hss, hrest⟩ := hwf
    have hstopa : r.stop ≤ a.length := le_trans hstop hna
    have hstarta : r.start ≤ a.length := le_trans (le_of_lt hss) hstopa
    by_cases hscore : r.score < st.pii_confidence_threshold
    · rw [anonymizeGo_cons_skip _ _ _ _ _ _ _ _ _ _ hscore,
        anonymizeGo_cons_skip _ _ _ _ _ _ _ _ _ _ hscore]
      exact ih a b rv mv i r.start hrest (le_trans (le_of_lt hss) hstopa)
    · rw [anonymizeGo_cons_keep _ _ _ _ _ _ _ _ _ _ hscore,
        anonymizeGo_cons_keep _ _ _ _ _ _ _ _ _ _ hscore]
      have htake : (a ++ b).take r.start = a.take r.start := by
        rw [List.take_append_eq_append_take]
        have : r.start - a.length = 0 := by omega
        rw [this]
        simp
      have htakestop : (a ++ b).take r.stop = a.take r.stop := by
        rw [List.take_append_eq_append_take]
        have : r.stop - a.length = 0 := by omega
        rw [this]
        simp
      have hdrop : (a ++ b).drop r.stop = a.drop r.stop ++ b := by
        rw [List.drop_append_eq_append_drop]
        have : r.stop - a.length = 0 := by omega
        rw [this]
        simp
      have hslice : pySlice (a ++ b) r.start r.stop = pySlice a r.start r.stop := by
        rw [pySlice, pySlice, htakestop]
      rw [htake, hdrop, hslice]
      have hassoc : a.take r.start ++ mkToken r.entity_type (ids i) ++ (a.drop r.stop ++ b)
          = (a.take r.start ++ mkToken r.entity_type (ids i) ++ a.drop r.stop) ++ b := by
        simp
      rw [hassoc]
      refine ih _ b _ _ (i + 1) r.start hrest ?_
      have : (a.take r.start).length = r.start := by
        rw [List.length_take]
        omega
      simp only [List.length_append, this]
      omega

/-- The records written by the loop (bare-token keys, in left-to-right
span order). -/
def recsOf (st : Settings) (enc : Str → Str) (ids : Nat → Str) (now : Nat)
    (trace : Str) (i : Nat) :
    List RecognizerResult → Str → List (Str × VaultRecord)
  | [], _ => []
  | r :: rest, text =>
    recsOf st enc ids now trace (i + 1) rest (text.take r.start)
      ++ [(mkToken r.entity_type (ids i),
           ⟨enc (pySlice text r.start r.stop), r.entity_type, trace, now, st.pii_vault_ttl⟩)]

/-- The chunk decomposition induced by the loop on descending spans;
chunks come out in left-to-right text order. -/
def chunksOf (ids : Nat → Str) (i : Nat) :
    List RecognizerResult → Str → List Chunk × Str
  | [], text => ([], text)
  | r :: rest, text =>
    ((chunksOf ids (i + 1) rest (text.take r.start)).1
        ++ [⟨(chunksOf ids (i + 1) rest (text.take r.start)).2,
             mkToken r.entity_type (ids i), pySlice text r.start r.stop, true⟩],
      text.drop r.stop)

/-- The minted tokens, in left-to-right text order. -/
def toksOf (ids : Nat → Str) (i : Nat) : List RecognizerResult → List Str
  | [] => []
  | r :: rest => toksOf ids (i + 1) rest ++ [mkToken r.entity_type (ids i)]

/-- Redis vault contents after the loop. -/
def redisOf (mode : StoreMode) (recs : List (Str × VaultRecord)) (rv : Vault) : Vault :=
  match mode with
  | .redisOk => recs.map (fun p => (piiKey p.1, p.2)) ++ rv
  | _ => rv

/-- Fallback-dict contents after the loop. -/
def memOf (mode : StoreMode) (recs : List (Str × VaultRecord)) (mv : Vault) : Vault :=
  match mode with
  | .mem => recs ++ mv
  | _ => mv

lemma redisOf_snoc (mode : StoreMode) (R : List (Str × VaultRecord)) (k : Str)
    (rec0 : VaultRecord) (rv : Vault) :
    redisOf mode R (redisPush mode k rec0 rv) = redisOf mode (R ++ [(k, rec0)]) rv := by
  cases mode <;> simp [redisOf, redisPush]

lemma memOf_snoc (mode : StoreMode) (R : List (Str × VaultRecord)) (k : Str)
    (rec0 : VaultRecord) (mv : Vault) :
    memOf mode R (memPush mode k rec0 mv) = memOf mode (R ++ [(k, rec0)]) mv := by
  cases mode <;> simp [memOf, memPush]

lemma flatT_snoc (cs : List Chunk) (c : Chunk) (fin : Str) :
    flatT (cs ++ [c]) fin = flatT cs (c.seg ++ c.tok ++ fin) := by
  induction cs with
  | nil => simp [flatT]
  | cons d cs ih => simp [flatT, ih]

lemma flatO_snoc (cs : List Chunk) (c : Chunk) (fin : Str) :
    flatO (cs ++ [c]) fin = flatO cs (c.seg ++ c.val ++ fin) := by
  induction cs with
  | nil => simp [flatO]
  | cons d cs ih => simp [flatO, ih]

/-- Shape theorem for the anonymize loop: on well-formed spans all at or
above the threshold, the output text is the chunk render, the vaults hold
exactly the minted records, and the id counter advanced once per span. -/
lemma anonymizeGo_shape (st : Settings) (enc : Str → Str) (ids : Nat → Str)
    (now : Nat) (mode : StoreMode) (trace : Str) :
    ∀ (rs : List RecognizerResult) (text : Str) (rv mv : Vault) (i n : Nat),
      WFSpans rs n → n ≤ text.length →
      (∀ r ∈ rs, ¬ r.score < st.pii_confidence_threshold) →
      anonymizeGo st enc ids now mode trace rs text rv mv i
        = (flatT (chunksOf ids i rs text).1 (chunksOf ids i rs text).2,
           redisOf mode (recsOf st enc ids now trace i rs text) rv,
           memOf mode (recsOf st enc ids now trace i rs text) mv,
           i + rs.length) := by
  intro rs
  induction rs with
  | nil =>
    intro text rv mv i n _ _ _
    simp [anonymizeGo_nil, chunksOf, flatT, recsOf, redisOf, memOf]
    cases mode <;> simp [redisOf, memOf]
  | cons r rest ih =>
    intro text rv mv i n hwf hn hsc
    obtain ⟨hstop, hss, hrest⟩ := hwf
    have hscore : ¬ r.score < st.pii_confidence_threshold := hsc r (by simp)
    have hstopt : r.stop ≤ text.length := le_trans hstop hn
    have hstartt : r.start ≤ text.length := le_trans (le_of_lt hss) hstopt
    rw [anonymizeGo_cons_keep _ _ _ _ _ _ _ _ _ _ hscore]
    have hlentake : (text.take r.start).length = r.start := by
      rw [List.length_take]; omega
    have happ := anonymizeGo_append st enc ids now mode trace rest
      (text.take r.start) (mkToken r.entity_type (ids i) ++ text.drop r.stop)
      (redisPush mode (mkToken r.entity_type (ids i))
        ⟨enc (pySlice text r.start r.stop), r.entity_type, trace, now, st.pii_vault_ttl⟩ rv)
      (memPush mode (mkToken r.entity_type (ids i))
        ⟨enc (pySlice text r.start r.stop), r.entity_type, trace, now, st.pii_vault_ttl⟩ mv)
      (i + 1) r.start hrest (by omega)
    rw [show text.take r.start ++ mkToken r.entity_type (ids i) ++ text.drop r.stop
      = text.take r.start ++ (mkToken r.entity_type (ids i) ++ text.drop r.stop) by simp]
    rw [happ]
    rw [ih (text.take r.start) _ _ (i + 1) r.start hrest (by omega)
      (fun x hx => hsc x (by simp [hx]))]
    simp only [chunksOf, recsOf]
    simp only [Prod.mk.injEq]
    refine ⟨?_, ?_, ?_, ?_⟩
    · rw [flatT_snoc]
      generalize chunksOf ids (i + 1) rest (text.take r.start) = C
      rw [flatT_out C.1 (C.2 ++ mkToken r.entity_type (ids i) ++ text.drop r.stop),
        flatT_out C.1 C.2]
      simp
    · rw [redisOf_snoc]
    · rw [memOf_snoc]
    · simp
      omega

/-- The chunk decomposition reassembles to the original text. -/
lemma flatO_chunksOf (ids : Nat → Str) :
    ∀ (rs : List RecognizerResult) (text : Str) (i n : Nat),
      WFSpans rs n → n ≤ text.length →
      flatO (chunksOf ids i rs text).1 (chunksOf ids i rs text).2 = text := by
  intro rs
  induction rs with
  | nil => intro text i n _ _; simp [chunksOf, flatO]
  | cons r rest ih =>
    intro text i n hwf hn
    obtain ⟨hstop, hss, hrest⟩ := hwf
    have hstopt : r.stop ≤ text.length := le_trans hstop hn
    have hstartt : r.start ≤ text.length := by omega
    have hsl : text.take r.start ++ pySlice text r.start r.stop ++ text.drop r.stop
        = text := by
      rw [pySlice]
      rw [show text.take r.start = (text.take r.stop).take r.start by
        rw [List.take_take]
        congr 1
        omega]
      rw [List.take_append_drop, List.take_append_drop]
    simp only [chunksOf]
    rw [flatO_snoc]
    have hC2 : flatO (chunksOf ids (i + 1) rest (text.take r.start)).1
        (chunksOf ids (i + 1) rest (text.take r.start)).2 = text.take r.start :=
      ih (text.take r.start) (i + 1) r.start hrest (by rw [List.length_take]; omega)
    generalize hC : chunksOf ids (i + 1) rest (text.take r.start) = C at hC2 ⊢
    rw [flatO_out C.1 (C.2 ++ pySlice text r.start r.stop ++ text.drop r.stop)]
    rw [show flatO C.1 [] ++ (C.2 ++ pySlice text r.start r.stop ++ text.drop r.stop)
        = (flatO C.1 [] ++ C.2) ++ pySlice text r.start r.stop ++ text.drop r.stop by simp]
    rw [← flatO_out C.1 C.2, hC2]
    exact hsl

lemma chunksOf_map_tok (ids : Nat → Str) :
    ∀ (rs : List RecognizerResult) (text : Str) (i : Nat),
      (chunksOf ids i rs text).1.map Chunk.tok = toksOf ids i rs := by
  intro rs
  induction rs with
  | nil => intro text i; simp [chunksOf, toksOf]
  | cons r rest ih =>
    intro text i
    simp [chunksOf, toksOf, ih]

lemma recsOf_map_key (st : Settings) (enc : Str → Str) (ids : Nat → Str) (now : Nat)
    (trace : Str) :
    ∀ (rs : List RecognizerResult) (text : Str) (i : Nat),
      (recsOf st enc ids now trace i rs text).map Prod.fst = toksOf ids i rs := by
  intro rs
  induction rs with
  | nil => intro text i; simp [recsOf, toksOf]
  | cons r rest ih =>
    intro text i
    simp [recsOf, toksOf, ih]

lemma toksOf_mem {ids : Nat → Str} :
    ∀ {rs : List RecognizerResult} {i : Nat} {t : Str}, t ∈ toksOf ids i rs →
      ∃ j, i ≤ j ∧ j < i + rs.length ∧ ∃ r ∈ rs, t = mkToken r.entity_type (ids j) := by
  intro rs
  induction rs with
  | nil => intro i t ht; simp [toksOf] at ht
  | cons r rest ih =>
    intro i t ht
    simp only [toksOf, List.mem_append, List.mem_singleton] at ht
    rcases ht with ht | rfl
    · obtain ⟨j, hj1, hj2, r', hr', rfl⟩ := ih ht
      exact ⟨j, by omega, by simp; omega, r', by simp [hr'], rfl⟩
    · exact ⟨i, le_refl i, by simp, r, by simp, rfl⟩

/-- Distinct fresh ids give pairwise distinct tokens. -/
lemma toksOf_nodup {ids : Nat → Str} :
    ∀ {rs : List RecognizerResult} {i : Nat},
      (∀ j k, i ≤ j → j < i + rs.length → i ≤ k → k < i + rs.length → j ≠ k →
        ids j ≠ ids k) →
      (∀ j, i ≤ j → j < i + rs.length → (ids j).length = 8) →
      (toksOf ids i rs).Nodup := by
  intro rs
  induction rs with
  | nil => intro i _ _; simp [toksOf]
  | cons r rest ih =>
    intro i hids hlen
    simp only [toksOf]
    rw [List.nodup_append]
    refine ⟨ih (fun j k h1 h2 h3 h4 h5 => hids j k (by omega) (by simp; omega)
        (by omega) (by simp; omega) h5)
      (fun j h1 h2 => hlen j (by omega) (by simp; omega)), by simp, ?_⟩
    intro t ht ht2
    simp only [List.mem_singleton] at ht2
    subst ht2
    obtain ⟨j, hj1, hj2, r', hr', heq⟩ := toksOf_mem ht
    have hidlen_j : (ids j).length = 8 := hlen j (by omega) (by simp; omega)
    have hidlen_i : (ids i).length = 8 := hlen i (by omega) (by simp)
    have hid : ids j = ids i := mkToken_id_inj hidlen_j hidlen_i heq.symm
    exact hids j i (by omega) (by simp; omega) (by omega) (by simp) (by omega) hid

lemma find?_map_piiKey (l : List (Str × VaultRecord)) (k : Str) :
    (l.map fun p => (piiKey p.1, p.2)).find? (fun p => p.1 == piiKey k)
      = (l.find? fun p => p.1 == k).map fun p => (piiKey p.1, p.2) := by
  induction l with
  | nil => simp
  | cons p l ih =>
    by_cases h : p.1 = k
    · subst h
      simp
    · have h2 : ¬ piiKey p.1 = piiKey k := fun hh => h (piiKey_inj hh)
      simp only [List.map_cons]
      rw [List.find?_cons_of_neg _ (by simpa using h2),
        List.find?_cons_of_neg _ (by simpa using h)]
      exact ih

/-- Lookup of a chunk's token in the records written by the loop. -/
lemma recsOf_find (st : Settings) (enc : Str → Str) (ids : Nat → Str) (now : Nat)
    (trace : Str) :
    ∀ (rs : List RecognizerResult) (text : Str) (i : Nat),
      (∀ j k, i ≤ j → j < i + rs.length → i ≤ k → k < i + rs.length → j ≠ k →
        ids j ≠ ids k) →
      (∀ j, i ≤ j → j < i + rs.length → (ids j).length = 8) →
      ∀ c ∈ (chunksOf ids i rs text).1,
        ∃ rec0 : VaultRecord,
          (recsOf st enc ids now trace i rs text).find? (fun p => p.1 == c.tok)
            = some (c.tok, rec0)
          ∧ rec0.value = enc c.val ∧ rec0.stored_at = now ∧ rec0.ttl = st.pii_vault_ttl := by
  intro rs
  induction rs with
  | nil => intro text i _ _ c hc; simp [chunksOf] at hc
  | cons r rest ih =>
    intro text i hids hlen c hc
    simp only [chunksOf, List.mem_append, List.mem_singleton] at hc
    simp only [recsOf]
    rcases hc with hc | rfl
    · obtain ⟨rec0, hfind, hv, hs, ht⟩ := ih (text.take r.start) (i + 1)
        (fun j k h1 h2 h3 h4 h5 => hids j k (by omega) (by simp; omega)
          (by omega) (by simp; omega) h5)
        (fun j h1 h2 => hlen j (by omega) (by simp; omega)) c hc
      refine ⟨rec0, ?_, hv, hs, ht⟩
      rw [List.find?_append, hfind]
      rfl
    · refine ⟨⟨enc (pySlice text r.start r.stop), r.entity_type, trace, now,
        st.pii_vault_ttl⟩, ?_, rfl, rfl, rfl⟩
      have hnone : (recsOf st enc ids now trace (i + 1) rest (text.take r.start)).find?
          (fun p => p.1 == mkToken r.entity_type (ids i)) = none := by
        rw [List.find?_eq_none]
        intro p hp
        have hkey : p.1 ∈ toksOf ids (i + 1) rest := by
          rw [← recsOf_map_key st enc ids now trace rest (text.take r.start) (i + 1)]
          exact List.mem_map_of_mem Prod.fst hp
        obtain ⟨j, hj1, hj2, r', hr', heq⟩ := toksOf_mem hkey
        rw [heq]
        simp only [beq_iff_eq]
        intro heq2
        have hidlen_j : (ids j).length = 8 := hlen j (by omega) (by simp; omega)
        have hidlen_i : (ids i).length = 8 := hlen i (by omega) (by simp)
        have hid : ids j = ids i := mkToken_id_inj hidlen_j hidlen_i heq2
        exact hids j i (by omega) (by simp; omega) (by omega) (by simp) (by omega) hid
      rw [List.find?_append, hnone]
      simp

lemma chunksOf_live (ids : Nat → Str) :
    ∀ (rs : List RecognizerResult) (text : Str) (i : Nat),
      ∀ c ∈ (chunksOf ids i rs text).1, c.live = true := by
  intro rs
  induction rs with
  | nil => intro text i c hc; simp [chunksOf] at hc
  | cons r rest ih =>
    intro text i c hc
    simp only [chunksOf, List.mem_append, List.mem_singleton] at hc
    rcases hc with hc | rfl
    · exact ih (text.take r.start) (i + 1) c hc
    · rfl

lemma flatM_eq_flatO_of_live {cs : List Chunk} {fin : Str}
    (h : ∀ c ∈ cs, c.live = true) : flatM cs fin = flatO cs fin := by
  induction cs with
  | nil => rfl
  | cons c cs ih =>
    simp only [flatM, flatO, h c (by simp)]
    rw [ih fun x hx => h x (by simp [hx])]
    simp

lemma flatO_infix_seg :
    ∀ (cs : List Chunk) (fin : Str) (c : Chunk), c ∈ cs →
      ∃ x y, flatO cs fin = x ++ c.seg ++ y := by
  intro cs
  induction cs with
  | nil => intro fin c hc; simp at hc
  | cons d cs ih =>
    intro fin c hc
    rcases List.mem_cons.mp hc with rfl | hc
    · exact ⟨[], c.val ++ flatO cs fin, by simp [flatO]⟩
    · obtain ⟨x, y, hxy⟩ := ih fin c hc
      exact ⟨d.seg ++ d.val ++ x, y, by simp [flatO, hxy]⟩

lemma flatO_suffix_fin (cs : List Chunk) (fin : Str) :
    ∃ x, flatO cs fin = x ++ fin :=
  ⟨flatO cs [], flatO_out cs fin⟩

/-- Sorted descending + pairwise disjoint + in-bounds spans form a
well-formed descending chain. -/
lemma wfSpans_of_sorted :
    ∀ (rs : List RecognizerResult) (n : Nat),
      List.Pairwise (fun a b => b.start ≤ a.start) rs →
      List.Pairwise (fun a b => a.stop ≤ b.start ∨ b.stop ≤ a.start) rs →
      (∀ r ∈ rs, r.start < r.stop ∧ r.stop ≤ n) →
      WFSpans rs n := by
  intro rs
  induction rs with
  | nil => intro n _ _ _; trivial
  | cons r rest ih =>
    intro n hsort hdisj hbnd
    obtain ⟨hrs, hrb⟩ := hbnd r (by simp)
    refine ⟨hrb, hrs, ?_⟩
    refine ih r.start (List.Pairwise.of_cons hsort) (List.Pairwise.of_cons hdisj) ?_
    intro r' hr'
    obtain ⟨h1, -⟩ := hbnd r' (by simp [hr'])
    refine ⟨h1, ?_⟩
    have hle : r'.start ≤ r.start := (List.pairwise_cons.mp hsort).1 r' hr'
    rcases (List.pairwise_cons.mp hdisj).1 r' hr' with h2 | h2
    · omega
    · exact h2

instance : IsTotal RecognizerResult (fun a b => b.start ≤ a.start) :=
  ⟨fun a b => le_total b.start a.start⟩

instance : IsTrans RecognizerResult (fun a b => b.start ≤ a.start) :=
  ⟨fun _ _ _ hab hbc => le_trans hbc hab⟩

/-! ## Claim theorems: PII vault -/

/-- C1: Round-trip restoration.  For every text `T` free of token-shaped
substrings whose detected PII spans are pairwise disjoint, nonempty, in
bounds, all with confidence at or above `pii_confidence_threshold` and
with presidio entity types; with fresh pairwise-distinct 8-hex token ids
(uuid freshness); a working encrypt/decrypt codec; against the same
vault-store instance (the Redis vault populated by this very `anonymize`
call); and before TTL expiry — `deanonymize(anonymize(T, trace), trace)`
returns exactly `T`. -/
theorem claim_C1_round_trip
    (st : Settings) (enc dec : Str → Str) (ids : Nat → Str) (now nowD : Nat)
    (trace : Str) (results : List RecognizerResult) (text : Str)
    (hdisj : List.Pairwise (fun a b => a.stop ≤ b.start ∨ b.stop ≤ a.start) results)
    (hspan : ∀ r ∈ results, r.start < r.stop ∧ r.stop ≤ text.length ∧
      ¬ r.score < st.pii_confidence_threshold ∧ WFEntity r.entity_type)
    (hids : ∀ j k, j < results.length → k < results.length → j ≠ k → ids j ≠ ids k)
    (hidwf : ∀ j, j < results.length → WFId (ids j))
    (hfresh : ¬ HasTok text)
    (hcodec : ∀ s, dec (enc s) = s)
    (httl : nowD < now + st.pii_vault_ttl) :
    deanonymize dec
      (deanonLookup .redisOk
        (anonymize st enc ids now .redisOk trace results text).2.1
        (anonymize st enc ids now .redisOk trace results text).2.2 nowD)
      (anonymize st enc ids now .redisOk trace results text).1
      = text := by
  by_cases htext : text = []
  · subst htext
    simp only [anonymize, if_pos rfl]
    rw [deanonymize, deanonymizeWW_eq]
    simp [findTokens_nil, restoreFold_nil]
  · simp only [anonymize, if_neg htext]
    have hperm : List.Perm (sortByStartDesc results) results :=
      List.perm_insertionSort _ results
    have hsort : List.Pairwise (fun a b => b.start ≤ a.start) (sortByStartDesc results) :=
      List.sorted_insertionSort _ results
    have hdisj' : List.Pairwise (fun a b => a.stop ≤ b.start ∨ b.stop ≤ a.start)
        (sortByStartDesc results) := by
      refine (hperm.pairwise_iff ?_).mpr hdisj
      intro a b hab
      rcases hab with h | h
      · exact Or.inr h
      · exact Or.inl h
    have hlen : (sortByStartDesc results).length = results.length := hperm.length_eq
    have hmem : ∀ r ∈ sortByStartDesc results, r ∈ results :=
      fun r hr => hperm.mem_iff.mp hr
    have hwf : WFSpans (sortByStartDesc results) text.length := by
      refine wfSpans_of_sorted _ text.length hsort hdisj' ?_
      intro r hr
      obtain ⟨h1, h2, -, -⟩ := hspan r (hmem r hr)
      exact ⟨h1, h2⟩
    have hscores : ∀ r ∈ sortByStartDesc results,
        ¬ r.score < st.pii_confidence_threshold :=
      fun r hr => (hspan r (hmem r hr)).2.2.1
    have hshape := anonymizeGo_shape st enc ids now .redisOk trace
      (sortByStartDesc results) text [] [] 0 text.length hwf (le_refl _) hscores
    rw [hshape]
    set rs := sortByStartDesc results with hrsdef
    set C := chunksOf ids 0 rs text with hCdef
    set recs := recsOf st enc ids now trace 0 rs text with hrecsdef
    simp only []
    have horig : flatO C.1 C.2 = text :=
      flatO_chunksOf ids rs text 0 text.length hwf (le_refl _)
    have hids' : ∀ j k, 0 ≤ j → j < 0 + rs.length → 0 ≤ k → k < 0 + rs.length →
        j ≠ k → ids j ≠ ids k := by
      intro j k _ hj _ hk hne
      exact hids j k (by omega) (by omega) hne
    have hlen8 : ∀ j, 0 ≤ j → j < 0 + rs.length → (ids j).length = 8 := by
      intro j _ hj
      exact (hidwf j (by omega)).1
    have htokshape : ∀ c ∈ C.1, TokShape c.tok := by
      intro c hc
      have hmemtok : c.tok ∈ toksOf ids 0 rs := by
        rw [← chunksOf_map_tok ids rs text 0]
        exact List.mem_map_of_mem Chunk.tok hc
      obtain ⟨j, hj1, hj2, r, hr, heq⟩ := toksOf_mem hmemtok
      rw [heq]
      exact tokShape_mkToken (hspan r (hmem r hr)).2.2.2 (hidwf j (by omega))
    have hnodup : (C.1.map Chunk.tok).Nodup := by
      rw [hCdef, chunksOf_map_tok]
      exact toksOf_nodup hids' hlen8
    have hsegsafe : ∀ c ∈ C.1, ¬ HasTok c.seg := by
      intro c hc hbad
      obtain ⟨x, y, hxy⟩ := flatO_infix_seg C.1 C.2 c hc
      exact hfresh (by rw [← horig, hxy]; exact hasTok_lift x y hbad)
    have hfinsafe : ¬ HasTok C.2 := by
      intro hbad
      obtain ⟨x, hx⟩ := flatO_suffix_fin C.1 C.2
      exact hfresh (by rw [← horig, hx]; simpa using hasTok_lift x [] hbad)
    rw [deanonymize, deanonymizeWW_eq]
    simp only []
    rw [findTokens_flatT htokshape hsegsafe hfinsafe]
    have hvget : ∀ c ∈ C.1,
        (fun tok => (deanonLookup .redisOk (redisOf .redisOk recs [])
            (memOf .redisOk recs []) nowD tok).map dec) c.tok
          = if c.live then some c.val else none := by
      intro c hc
      rw [chunksOf_live ids rs text 0 c hc, if_pos rfl]
      obtain ⟨rec0, hfind, hval, hstored, httl0⟩ :=
        recsOf_find st enc ids now trace rs text 0 hids' hlen8 c hc
      simp only [deanonLookup, vaultGet, redisOf]
      rw [List.append_nil, find?_map_piiKey]
      rw [← hrecsdef] at hfind
      rw [hfind]
      have hlt : nowD < rec0.stored_at + rec0.ttl := by
        rw [hstored, httl0]
        exact httl
      simp [hlt, hval, hcodec]
    have hrestore := restore_flatT
      (fun tok => (deanonLookup .redisOk (redisOf .redisOk recs [])
        (memOf .redisOk recs []) nowD tok).map dec)
      C.1 [] C.2 (by simpa using htokshape) (by simpa using hnodup)
      (by simpa [horig] using hfresh) hvget
    simp only [flatM] at hrestore
    rw [hrestore]
    rw [flatM_eq_flatO_of_live (chunksOf_live ids rs text 0)]
    exact horig

lemma orderedInsert_decomp {le : RecognizerResult → RecognizerResult → Prop}
    [DecidableRel le] (a : RecognizerResult) :
    ∀ l : List RecognizerResult,
      ∃ x y, List.orderedInsert le a l = x ++ a :: y ∧ l = x ++ y := by
  intro l
  induction l with
  | nil => exact ⟨[], [], rfl, rfl⟩
  | cons b l ih =>
    by_cases h : le a b
    · exact ⟨[], b :: l, by simp [List.orderedInsert, h], rfl⟩
    · obtain ⟨x, y, hxy, hl⟩ := ih
      exact ⟨b :: x, y, by simp [List.orderedInsert, h, hxy], by simp [hl]⟩

/-- A below-threshold span anywhere in the result list contributes
nothing to the loop. -/
lemma anonymizeGo_skip_middle (st : Settings) (enc : Str → Str) (ids : Nat → Str)
    (now : Nat) (mode : StoreMode) (trace : Str) {r : RecognizerResult}
    (hscore : r.score < st.pii_confidence_threshold) :
    ∀ (x y : List RecognizerResult) (text : Str) (rv mv : Vault) (i : Nat),
      anonymizeGo st enc ids now mode trace (x ++ r :: y) text rv mv i
        = anonymizeGo st enc ids now mode trace (x ++ y) text rv mv i := by
  intro x
  induction x with
  | nil =>
    intro y text rv mv i
    exact anonymizeGo_cons_skip _ _ _ _ _ _ _ _ _ _ hscore
  | cons h x ih =>
    intro y text rv mv i
    by_cases hs : h.score < st.pii_confidence_threshold
    · rw [List.cons_append, anonymizeGo_cons_skip _ _ _ _ _ _ _ _ _ _ hs,
        List.cons_append, anonymizeGo_cons_skip _ _ _ _ _ _ _ _ _ _ hs]
      exact ih y text rv mv i
    · rw [List.cons_append, anonymizeGo_cons_keep _ _ _ _ _ _ _ _ _ _ hs,
        List.cons_append, anonymizeGo_cons_keep _ _ _ _ _ _ _ _ _ _ hs]
      exact ih y _ _ _ _

/-- When every span is below the threshold the loop is the identity. -/
lemma anonymizeGo_all_skip (st : Settings) (enc : Str → Str) (ids : Nat → Str)
    (now : Nat) (mode : StoreMode) (trace : Str) :
    ∀ (rs : List RecognizerResult) (text : Str) (rv mv : Vault) (i : Nat),
      (∀ r ∈ rs, r.score < st.pii_confidence_threshold) →
      anonymizeGo st enc ids now mode trace rs text rv mv i = (text, rv, mv, i) := by
  intro rs
  induction rs with
  | nil => intro text rv mv i _; rfl
  | cons r rest ih =>
    intro text rv mv i hlow
    rw [anonymizeGo_cons_skip _ _ _ _ _ _ _ _ _ _ (hlow r (by simp))]
    exact ih text rv mv i fun x hx => hlow x (by simp [hx])

/-- The text output (and the id counter) of the loop do not depend on the
store mode or the vault contents: a failed vault write never changes the
substitution. -/
lemma anonymizeGo_text_mode (st : Settings) (enc : Str → Str) (ids : Nat → Str)
    (now : Nat) (trace : Str) :
    ∀ (rs : List RecognizerResult) (text : Str)
      (mode₁ mode₂ : StoreMode) (rv₁ mv₁ rv₂ mv₂ : Vault) (i : Nat),
      (anonymizeGo st enc ids now mode₁ trace rs text rv₁ mv₁ i).1
        = (anonymizeGo st enc ids now mode₂ trace rs text rv₂ mv₂ i).1 := by
  intro rs
  induction rs with
  | nil => intro text mode₁ mode₂ rv₁ mv₁ rv₂ mv₂ i; rfl
  | cons r rest ih =>
    intro text mode₁ mode₂ rv₁ mv₁ rv₂ mv₂ i
    by_cases hs : r.score < st.pii_confidence_threshold
    · rw [anonymizeGo_cons_skip _ _ _ _ _ _ _ _ _ _ hs,
        anonymizeGo_cons_skip _ _ _ _ _ _ _ _ _ _ hs]
      exact ih text mode₁ mode₂ rv₁ mv₁ rv₂ mv₂ i
    · rw [anonymizeGo_cons_keep _ _ _ _ _ _ _ _ _ _ hs,
        anonymizeGo_cons_keep _ _ _ _ _ _ _ _ _ _ hs]
      exact ih _ mode₁ mode₂ _ _ _ _ _

/-- With a raising Redis write, nothing is ever stored. -/
lemma anonymizeGo_failing_vaults (st : Settings) (enc : Str → Str) (ids : Nat → Str)
    (now : Nat) (trace : Str) :
    ∀ (rs : List RecognizerResult) (text : Str) (rv mv : Vault) (i : Nat),
      (anonymizeGo st enc ids now .redisFailing trace rs text rv mv i).2.1 = rv ∧
      (anonymizeGo st enc ids now .redisFailing trace rs text rv mv i).2.2.1 = mv := by
  intro rs
  induction rs with
  | nil => intro text rv mv i; exact ⟨rfl, rfl⟩
  | cons r rest ih =>
    intro text rv mv i
    by_cases hs : r.score < st.pii_confidence_threshold
    · rw [anonymizeGo_cons_skip _ _ _ _ _ _ _ _ _ _ hs]
      exact ih text rv mv i
    · rw [anonymizeGo_cons_keep _ _ _ _ _ _ _ _ _ _ hs]
      exact ih _ _ _ _

/-- C4: Threshold filtering.  A span returned by the detector with
confidence strictly below `pii_confidence_threshold` is never tokenized:
the outputs of `anonymize` (text, Redis vault and fallback dict alike) are
identical to a run in which the detector never returned that span — no
substitution is made for it and no vault record is written for it. -/
theorem claim_C4_threshold_filtering
    (st : Settings) (enc : Str → Str) (ids : Nat → Str) (now : Nat)
    (mode : StoreMode) (trace : Str) (r : RecognizerResult)
    (results : List RecognizerResult) (text : Str)
    (hscore : r.score < st.pii_confidence_threshold) :
    anonymize st enc ids now mode trace (r :: results) text
      = anonymize st enc ids now mode trace results text := by
  by_cases htext : text = []
  · simp [anonymize, htext]
  · simp only [anonymize, if_neg htext]
    have hgo : anonymizeGo st enc ids now mode trace
          (sortByStartDesc (r :: results)) text [] [] 0
        = anonymizeGo st enc ids now mode trace (sortByStartDesc results) text [] [] 0 := by
      have hins : sortByStartDesc (r :: results)
          = List.orderedInsert (fun a b => b.start ≤ a.start) r (sortByStartDesc results) := rfl
      obtain ⟨x, y, hxy, hl⟩ :=
        @orderedInsert_decomp (fun a b => b.start ≤ a.start) _ r (sortByStartDesc results)
      rw [hins, hxy, anonymizeGo_skip_middle st enc ids now mode trace hscore, ← hl]
    rw [hgo]

/-- C4 witness: a PERSON span at confidence 0.5 < 0.6 is dropped. -/
theorem claim_C4_threshold_filtering_witness :
    ((1 : ℚ) / 2 < defaultSettings.pii_confidence_threshold) ∧
    anonymize defaultSettings (fun s => s) (fun _ => ('a' :: "b12cd34".toList)) 0
        .redisOk ("t1".toList) [⟨0, 4, 1 / 2, "PERSON".toList⟩] ("John".toList)
      = anonymize defaultSettings (fun s => s) (fun _ => ('a' :: "b12cd34".toList)) 0
        .redisOk ("t1".toList) [] ("John".toList) :=
  ⟨by norm_num [defaultSettings],
   claim_C4_threshold_filtering defaultSettings (fun s => s)
     (fun _ => ('a' :: "b12cd34".toList)) 0 .redisOk ("t1".toList)
     ⟨0, 4, 1 / 2, "PERSON".toList⟩ [] ("John".toList) (by norm_num [defaultSettings])⟩

/-- C6: Zero-detection behaviour.  `anonymize` is total (never raises) and
returns the input text unchanged — with nothing written to either vault —
whenever the detector returns no spans at or above the confidence
threshold; in particular when it returns no spans at all. -/
theorem claim_C6_zero_detection
    (st : Settings) (enc : Str → Str) (ids : Nat → Str) (now : Nat)
    (mode : StoreMode) (trace : Str) (results : List RecognizerResult) (text : Str)
    (hlow : ∀ r ∈ results, r.score < st.pii_confidence_threshold) :
    anonymize st enc ids now mode trace results text = (text, [], []) := by
  by_cases htext : text = []
  · simp [anonymize, htext]
  · simp only [anonymize, if_neg htext]
    have hperm : List.Perm (sortByStartDesc results) results :=
      List.perm_insertionSort _ results
    rw [anonymizeGo_all_skip st enc ids now mode trace (sortByStartDesc results)
      text [] [] 0 (fun r hr => hlow r (hperm.mem_iff.mp hr))]

/-- C6 witness: no detections on a nonempty text. -/
theorem claim_C6_zero_detection_witness :
    (∀ r ∈ ([] : List RecognizerResult),
      r.score < defaultSettings.pii_confidence_threshold) ∧
    anonymize defaultSettings (fun s => s) (fun _ => "ab12cd34".toList) 0 .redisOk
        ("t1".toList) [] ("hello".toList) = ("hello".toList, [], []) :=
  ⟨by simp,
   claim_C6_zero_detection defaultSettings (fun s => s) (fun _ => "ab12cd34".toList)
     0 .redisOk ("t1".toList) [] ("hello".toList) (by simp)⟩

/-- C1 witness: a concrete phone-number round trip through the Redis
vault before expiry. -/
theorem claim_C1_round_trip_witness :
    (¬ HasTok ("Call 5551234567 now".toList)) ∧
    deanonymize (fun s => s)
      (deanonLookup .redisOk
        (anonymize defaultSettings (fun s => s) (fun _ => "ab12cd34".toList) 0 .redisOk
          ("t1".toList) [⟨5, 15, 85 / 100, "PHONE_NUMBER".toList⟩]
          ("Call 5551234567 now".toList)).2.1
        (anonymize defaultSettings (fun s => s) (fun _ => "ab12cd34".toList) 0 .redisOk
          ("t1".toList) [⟨5, 15, 85 / 100, "PHONE_NUMBER".toList⟩]
          ("Call 5551234567 now".toList)).2.2 10)
      (anonymize defaultSettings (fun s => s) (fun _ => "ab12cd34".toList) 0 .redisOk
        ("t1".toList) [⟨5, 15, 85 / 100, "PHONE_NUMBER".toList⟩]
        ("Call 5551234567 now".toList)).1
      = "Call 5551234567 now".toList :=
  ⟨by decide,
   claim_C1_round_trip defaultSettings (fun s => s) (fun s => s)
     (fun _ => "ab12cd34".toList) 0 10 ("t1".toList)
     [⟨5, 15, 85 / 100, "PHONE_NUMBER".toList⟩] ("Call 5551234567 now".toList)
     (by decide)
     (by
       intro r hr
       rcases List.mem_singleton.mp hr with rfl
       exact ⟨by decide, by decide, by norm_num [defaultSettings], by decide⟩)
     (by
       intro j k hj hk hne
       simp only [List.length_singleton] at hj hk
       exact absurd (by omega) hne)
     (by
       intro j hj
       exact (by decide : WFId ("ab12cd34".toList)))
     (by decide) (fun s => rfl) (by decide)⟩

/-- C9: Secrecy under vault-store failure.  The text returned by
`anonymize` is identical whether the Redis write succeeds, raises, or
falls back to the in-process map — a failed write is logged and skipped
after the exception handler, and the token is still spliced into the text.
With a raising store nothing is persisted (durability degrades), and under
the usual span conditions the failing-store output still has every
detected span replaced by its token (the chunk render). -/
theorem claim_C9_store_failure_secrecy
    (st : Settings) (enc : Str → Str) (ids : Nat → Str) (now : Nat)
    (trace : Str) (results : List RecognizerResult) (text : Str)
    (hdisj : List.Pairwise (fun a b => a.stop ≤ b.start ∨ b.stop ≤ a.start) results)
    (hspan : ∀ r ∈ results, r.start < r.stop ∧ r.stop ≤ text.length ∧
      ¬ r.score < st.pii_confidence_threshold) :
    ((anonymize st enc ids now .redisFailing trace results text).1
        = (anonymize st enc ids now .redisOk trace results text).1) ∧
    ((anonymize st enc ids now .redisFailing trace results text).1
        = (anonymize st enc ids now .mem trace results text).1) ∧
    (anonymize st enc ids now .redisFailing trace results text).2.1 = [] ∧
    (anonymize st enc ids now .redisFailing trace results text).2.2 = [] ∧
    (text ≠ [] →
      (anonymize st enc ids now .redisFailing trace results text).1
        = flatT (chunksOf ids 0 (sortByStartDesc results) text).1
            (chunksOf ids 0 (sortByStartDesc results) text).2) := by
  by_cases htext : text = []
  · subst htext
    refine ⟨rfl, rfl, ?_, ?_, fun h => absurd rfl h⟩ <;> simp [anonymize]
  · simp only [anonymize, if_neg htext]
    refine ⟨anonymizeGo_text_mode st enc ids now trace _ text _ _ _ _ _ _ 0,
      anonymizeGo_text_mode st enc ids now trace _ text _ _ _ _ _ _ 0,
      (anonymizeGo_failing_vaults st enc ids now trace _ text [] [] 0).1,
      (anonymizeGo_failing_vaults st enc ids now trace _ text [] [] 0).2,
      fun _ => ?_⟩
    have hperm : List.Perm (sortByStartDesc results) results :=
      List.perm_insertionSort _ results
    have hsort : List.Pairwise (fun a b => b.start ≤ a.start) (sortByStartDesc results) :=
      List.sorted_insertionSort _ results
    have hdisj' : List.Pairwise (fun a b => a.stop ≤ b.start ∨ b.stop ≤ a.start)
        (sortByStartDesc results) := by
      refine (hperm.pairwise_iff ?_).mpr hdisj
      intro a b hab
      rcases hab with h | h
      · exact Or.inr h
      · exact Or.inl h
    have hmem : ∀ r ∈ sortByStartDesc results, r ∈ results :=
      fun r hr => hperm.mem_iff.mp hr
    have hwf : WFSpans (sortByStartDesc results) text.length := by
      refine wfSpans_of_sorted _ text.length hsort hdisj' ?_
      intro r hr
      obtain ⟨h1, h2, -⟩ := hspan r (hmem r hr)
      exact ⟨h1, h2⟩
    have hshape := anonymizeGo_shape st enc ids now .redisFailing trace
      (sortByStartDesc results) text [] [] 0 text.length hwf (le_refl _)
      (fun r hr => (hspan r (hmem r hr)).2.2)
    rw [hshape]

/-- C9 witness: store failure with one detected span. -/
theorem claim_C9_store_failure_secrecy_witness :
    (∀ r ∈ [(⟨5, 15, 85 / 100, "PHONE_NUMBER".toList⟩ : RecognizerResult)],
      r.start < r.stop ∧ r.stop ≤ ("Call 5551234567 now".toList).length ∧
        ¬ r.score < defaultSettings.pii_confidence_threshold) ∧
    ((anonymize defaultSettings (fun s => s) (fun _ => "ab12cd34".toList) 0
        .redisFailing ("t1".toList) [⟨5, 15, 85 / 100, "PHONE_NUMBER".toList⟩]
        ("Call 5551234567 now".toList)).1
      = (anonymize defaultSettings (fun s => s) (fun _ => "ab12cd34".toList) 0
        .redisOk ("t1".toList) [⟨5, 15, 85 / 100, "PHONE_NUMBER".toList⟩]
        ("Call 5551234567 now".toList)).1) ∧
    (anonymize defaultSettings (fun s => s) (fun _ => "ab12cd34".toList) 0
        .redisFailing ("t1".toList) [⟨5, 15, 85 / 100, "PHONE_NUMBER".toList⟩]
        ("Call 5551234567 now".toList)).2.1 = [] := by
  have h := claim_C9_store_failure_secrecy defaultSettings (fun s => s)
    (fun _ => "ab12cd34".toList) 0 ("t1".toList)
    [⟨5, 15, 85 / 100, "PHONE_NUMBER".toList⟩] ("Call 5551234567 now".toList)
    (by decide)
    (by
      intro r hr
      rcases List.mem_singleton.mp hr with rfl
      exact ⟨by decide, by decide, by norm_num [defaultSettings]⟩)
  exact ⟨by
    intro r hr
    rcases List.mem_singleton.mp hr with rfl
    exact ⟨by decide, by decide, by norm_num [defaultSettings]⟩,
    h.1, h.2.2.1⟩

/-- C5: Miss and expiry behaviour of deanonymize.  Over an anonymized text
(safe segments interleaved with distinct tokens), a token whose vault
record is absent is left literally in place and is recorded as a warning,
while every token with a live record is still restored, and the function
is total (never raises).  A record whose TTL has elapsed is absent from
the vault. -/
theorem claim_C5_miss_behavior
    (dec : Str → Str) (lookup : Str → Option Str) (cs : List Chunk) (fin : Str)
    (htoks : ∀ c ∈ cs, isTok c.tok)
    (hnodup : (cs.map Chunk.tok).Nodup)
    (hsafe : ¬ HasTok (flatO cs fin))
    (hlk : ∀ c ∈ cs, (lookup c.tok).map dec = if c.live then some c.val else none) :
    deanonymizeWW dec lookup (flatT cs fin)
      = (flatM cs fin, (cs.filter fun c => !c.live).map Chunk.tok) ∧
    (∀ (key : Str) (rec0 : VaultRecord) (now : Nat),
      rec0.stored_at + rec0.ttl ≤ now → vaultGet [(key, rec0)] key now = none) := by
  constructor
  · rw [deanonymizeWW_eq]
    have htoks' : ∀ c ∈ cs, TokShape c.tok :=
      fun c hc => isTok_iff_tokShape.mp (htoks c hc)
    have hsegsafe : ∀ c ∈ cs, ¬ HasTok c.seg := by
      intro c hc hbad
      obtain ⟨x, y, hxy⟩ := flatO_infix_seg cs fin c hc
      exact hsafe (by rw [hxy]; exact hasTok_lift x y hbad)
    have hfinsafe : ¬ HasTok fin := by
      intro hbad
      obtain ⟨x, hx⟩ := flatO_suffix_fin cs fin
      exact hsafe (by rw [hx]; simpa using hasTok_lift x [] hbad)
    rw [findTokens_flatT htoks' hsegsafe hfinsafe]
    simp only [Prod.mk.injEq]
    constructor
    · have hrestore := restore_flatT (fun tok => (lookup tok).map dec) cs [] fin
        (by simpa using htoks') (by simpa using hnodup) (by simpa using hsafe)
        (fun c hc => hlk c hc)
      simpa [flatM] using hrestore
    · rw [List.filter_map]
      congr 1
      refine List.filter_congr ?_
      intro c hc
      have h := hlk c hc
      by_cases hl : c.live
      · rw [if_pos hl] at h
        obtain ⟨v, hv, -⟩ := Option.map_eq_some'.mp h
        simp [Function.comp, hv, hl]
      · rw [if_neg hl] at h
        have hnone : lookup c.tok = none := Option.map_eq_none'.mp h
        simp [Function.comp, hnone, hl]
  · intro key rec0 now h
    simp [vaultGet, Nat.not_lt.mpr h]

/-- C5 witness: one live token (restored) and one missing token (left in
place and warned about). -/
theorem claim_C5_miss_behavior_witness :
    (¬ HasTok (flatO
      [⟨"Hi ".toList, "[PERSON_ab12cd34]".toList, "Bob".toList, true⟩,
       ⟨", call ".toList, "[PHONE_NUMBER_ef56ab78]".toList, "5551234567".toList, false⟩]
      (" now".toList))) ∧
    deanonymizeWW (fun s => s)
      (fun t => if t = "[PERSON_ab12cd34]".toList then some ("Bob".toList) else none)
      (flatT
        [⟨"Hi ".toList, "[PERSON_ab12cd34]".toList, "Bob".toList, true⟩,
         ⟨", call ".toList, "[PHONE_NUMBER_ef56ab78]".toList, "5551234567".toList, false⟩]
        (" now".toList))
      = (flatM
          [⟨"Hi ".toList, "[PERSON_ab12cd34]".toList, "Bob".toList, true⟩,
           ⟨", call ".toList, "[PHONE_NUMBER_ef56ab78]".toList, "5551234567".toList, false⟩]
          (" now".toList),
         ([(⟨"Hi ".toList, "[PERSON_ab12cd34]".toList, "Bob".toList, true⟩ : Chunk),
           ⟨", call ".toList, "[PHONE_NUMBER_ef56ab78]".toList, "5551234567".toList,
            false⟩].filter fun c => !c.live).map Chunk.tok) :=
  ⟨by decide,
   (claim_C5_miss_behavior (fun s => s)
     (fun t => if t = "[PERSON_ab12cd34]".toList then some ("Bob".toList) else none)
     [⟨"Hi ".toList, "[PERSON_ab12cd34]".toList, "Bob".toList, true⟩,
      ⟨", call ".toList, "[PHONE_NUMBER_ef56ab78]".toList, "5551234567".toList, false⟩]
     (" now".toList) (by decide) (by decide) (by decide) (by decide)).1⟩

/-! ## Workflow state machine (src/graph.py, src/agents.py) -/

/-- The LangGraph `AgentState` (src/state.py).  `final_status` is absent
until a node first sets it (read via `state.get("final_status")`), hence
`Option`; `revision_count` is read via `state.get("revision_count", 0)`
and every entry point initializes it to 0. -/
structure AgentState where
  input_text : String := ""
  trace_id : String := ""
  category : String := ""
  confidence_score : ℚ := 0
  revision_count : Nat := 0
  final_status : Option String := none
  company_name : String := ""
  company_info : String := ""
  email_draft : String := ""
  feedback : String := ""

/-- Conditional-edge targets of the Router (src/graph.py:64-72). -/
inductive RouterRoute
  | researcher
  | support
  | END
deriving DecidableEq

/-- `route_after_router` (src/graph.py:14-22): lead → researcher,
complaint → support, anything else → END. -/
def route_after_router (s : AgentState) : RouterRoute :=
  if s.category = "lead" then .researcher
  else if s.category = "complaint" then .support
  else .END

/-- Conditional-edge targets of the Verifier (src/graph.py:78-85). -/
inductive VerifierRoute
  | writer
  | final_delivery
deriving DecidableEq

/-- `route_after_verifier` (src/graph.py:24-44): approved → delivery;
otherwise the loop detector sends `revision_count > 3` (a hardcoded
literal 3) to delivery as well; otherwise back to the writer. -/
def route_after_verifier (s : AgentState) : VerifierRoute :=
  if s.final_status = some "approved" then .final_delivery
  else if s.revision_count > 3 then .final_delivery
  else .writer

/-- Graph nodes (src/graph.py:51-56) plus the terminal `done` (END). -/
inductive Node
  | router
  | researcher
  | writer
  | verifier
  | support
  | final_delivery
  | done
deriving DecidableEq

/-- External collaborators of one workflow run, supplied as oracles:
`anonF` is `pii_manager.anonymize`; `spamRe` is `re.search` of the three
spam patterns over the anonymized text; `classify` is the parsed outcome
of the tier-2 LLM classification (`none` models the exception path, which
the code maps to spam at confidence 0); `verdict k` is whether the k-th
verifier response contains "APPROVE" (a verifier LLM exception maps to
`false`, i.e. rejected); `draft k` is the k-th writer output after the
risky-content guardrail; `research` the researcher result; `supportDraft`
the support answer; `deanonF` is `pii_manager.deanonymize`. -/
structure GraphEnv where
  anonF : String → String
  spamRe : String → Bool
  classify : Option String
  verdict : Nat → Bool
  draft : Nat → String
  research : String × String
  supportDraft : String
  deanonF : String → String

/-- `router_node` (src/agents.py:81-178): anonymize the input in place,
then the regex spam filter (returns category spam at confidence 1.0
without invoking the LLM tier), else the LLM tier (confidence 0.95;
exceptions fail safe to spam at confidence 0). -/
def router_node (env : GraphEnv) (s : AgentState) : AgentState :=
  if env.spamRe (env.anonF s.input_text) then
    { s with
      input_text := env.anonF s.input_text
      category := "spam"
      confidence_score := 1 }
  else
    match env.classify with
    | some cat =>
      { s with
        input_text := env.anonF s.input_text
        category := cat
        confidence_score := 95 / 100 }
    | none =>
      { s with
        input_text := env.anonF s.input_text
        category := "spam"
        confidence_score := 0 }

/-- `researcher_node` (src/agents.py:211-309): fills the company fields. -/
def researcher_node (env : GraphEnv) (s : AgentState) : AgentState :=
  { s with company_name := env.research.1, company_info := env.research.2 }

/-- `writer_node` (src/agents.py:312-387): sets the draft (k-th LLM
output, post-guardrail) and increments `revision_count` by exactly 1
(`state.get("revision_count", 0) + 1`). -/
def writer_node (env : GraphEnv) (k : Nat) (s : AgentState) : AgentState :=
  { s with email_draft := env.draft k, revision_count := s.revision_count + 1 }

/-- `verifier_node` (src/agents.py:390-443): sets `final_status` from the
k-th verdict; an exception defaults to "rejected". -/
def verifier_node (env : GraphEnv) (k : Nat) (s : AgentState) : AgentState :=
  { s with final_status := some (if env.verdict k then "approved" else "rejected") }

/-- `support_node` (src/agents.py:446-490). -/
def support_node (env : GraphEnv) (s : AgentState) : AgentState :=
  { s with email_draft := env.supportDraft, final_status := some "escalated" }

/-- `final_delivery_node` (src/agents.py:493-498): restores PII in the
draft via `pii_manager.deanonymize`. -/
def final_delivery_node (env : GraphEnv) (s : AgentState) : AgentState :=
  { s with email_draft := env.deanonF s.email_draft }

/-- One workflow execution state: current node, agent state, number of
verifier and writer invocations so far (oracle indices), and the log of
executed nodes (most recent first). -/
structure GState where
  cur : Node
  st : AgentState
  vIdx : Nat := 0
  wIdx : Nat := 0
  log : List Node := []

/-- One LangGraph super-step: execute the current node, then follow its
(conditional) edge (src/graph.py:59-94).  `done` is absorbing. -/
def stepG (env : GraphEnv) (g : GState) : GState :=
  match g.cur with
  | .router =>
    ⟨match route_after_router (router_node env g.st) with
      | .researcher => Node.researcher
      | .support => Node.support
      | .END => Node.done,
     router_node env g.st, g.vIdx, g.wIdx, .router :: g.log⟩
  | .researcher =>
    ⟨.writer, researcher_node env g.st, g.vIdx, g.wIdx, .researcher :: g.log⟩
  | .writer =>
    ⟨.verifier, writer_node env g.wIdx g.st, g.vIdx, g.wIdx + 1, .writer :: g.log⟩
  | .verifier =>
    ⟨match route_after_verifier (verifier_node env g.vIdx g.st) with
      | .writer => Node.writer
      | .final_delivery => Node.final_delivery,
     verifier_node env g.vIdx g.st, g.vIdx + 1, g.wIdx, .verifier :: g.log⟩
  | .support =>
    ⟨.final_delivery, support_node env g.st, g.vIdx, g.wIdx, .support :: g.log⟩
  | .final_delivery =>
    ⟨.done, final_delivery_node env g.st, g.vIdx, g.wIdx, .final_delivery :: g.log⟩
  | .done => g

/-- Iterated super-steps. -/
def runG (env : GraphEnv) : Nat → GState → GState
  | 0, g => g
  | n + 1, g => runG env n (stepG env g)

lemma stepG_done {env : GraphEnv} {g : GState} (h : g.cur = .done) :
    stepG env g = g := by
  obtain ⟨cur, s, vI, wI, lg⟩ := g
  simp only at h
  subst h
  rfl

lemma runG_fix {env : GraphEnv} {g : GState} (h : g.cur = .done) :
    ∀ n, runG env n g = g := by
  intro n
  induction n with
  | zero => rfl
  | succ n ih =>
    rw [show runG env (n + 1) g = runG env n (stepG env g) from rfl, stepG_done h]
    exact ih

lemma runG_add (env : GraphEnv) (m n : Nat) :
    ∀ g, runG env (m + n) g = runG env n (runG env m g) := by
  induction m with
  | zero => intro g; rw [Nat.zero_add]; rfl
  | succ m ih =>
    intro g
    rw [show m + 1 + n = (m + n) + 1 by omega]
    rw [show runG env ((m + n) + 1) g = runG env (m + n) (stepG env g) from rfl]
    rw [show runG env (m + 1) g = runG env m (stepG env g) from rfl]
    exact ih (stepG env g)

lemma route_after_verifier_high {s : AgentState} (h : 3 < s.revision_count) :
    route_after_verifier s = .final_delivery := by
  rw [route_after_verifier]
  by_cases hst : s.final_status = some "approved"
  · rw [if_pos hst]
  · rw [if_neg hst, if_pos h]

lemma router_node_rc (env : GraphEnv) (s : AgentState) :
    (router_node env s).revision_count = s.revision_count := by
  rw [router_node]
  split
  · rfl
  · split <;> rfl

/-- Exit step: a verifier state routed to delivery is done two super-steps
later. -/
lemma verifier_exit (env : GraphEnv) (s : AgentState) (vI wI : Nat) (lg : List Node)
    (h : route_after_verifier (verifier_node env vI s) = .final_delivery) :
    (runG env 2 ⟨.verifier, s, vI, wI, lg⟩).cur = .done := by
  have h1 : stepG env ⟨.verifier, s, vI, wI, lg⟩
      = ⟨.final_delivery, verifier_node env vI s, vI + 1, wI, .verifier :: lg⟩ := by
    simp only [stepG]
    rw [h]
  rw [show runG env 2 ⟨.verifier, s, vI, wI, lg⟩
    = stepG env (stepG env ⟨.verifier, s, vI, wI, lg⟩) from rfl, h1]
  rfl

/-- From any verifier state, the workflow reaches `done` within `2·d + 2`
further super-steps once `revision_count + d ≥ 4`, for any sequence of
verifier outcomes. -/
lemma verifier_reaches (env : GraphEnv) :
    ∀ (d : Nat) (g : GState), g.cur = .verifier → 4 ≤ g.st.revision_count + d →
      (runG env (2 * d + 2) g).cur = .done := by
  intro d
  induction d with
  | zero =>
    intro g hcur hrc
    obtain ⟨cur, s, vI, wI, lg⟩ := g
    simp only at hcur hrc
    subst hcur
    have hroute : route_after_verifier (verifier_node env vI s) = .final_delivery := by
      refine route_after_verifier_high ?_
      simp only [verifier_node]
      omega
    exact verifier_exit env s vI wI lg hroute
  | succ d ih =>
    intro g hcur hrc
    obtain ⟨cur, s, vI, wI, lg⟩ := g
    simp only at hcur hrc
    subst hcur
    rw [show 2 * (d + 1) + 2 = 2 + (2 * d + 2) by omega, runG_add]
    by_cases hhigh : 3 < s.revision_count
    · have hroute : route_after_verifier (verifier_node env vI s) = .final_delivery := by
        refine route_after_verifier_high ?_
        simp only [verifier_node]
        omega
      have h2 := verifier_exit env s vI wI lg hroute
      rw [runG_fix h2]
      exact h2
    · cases hv : env.verdict vI
      · -- rejected: loop back through the writer
        have hroute : route_after_verifier (verifier_node env vI s) = .writer := by
          rw [route_after_verifier]
          rw [if_neg (by simp [verifier_node, hv]), if_neg (by simp [verifier_node]; omega)]
        have h2 : runG env 2 ⟨.verifier, s, vI, wI, lg⟩
            = ⟨.verifier, writer_node env wI (verifier_node env vI s), vI + 1, wI + 1,
               .writer :: .verifier :: lg⟩ := by
          have h1 : stepG env ⟨.verifier, s, vI, wI, lg⟩
              = ⟨.writer, verifier_node env vI s, vI + 1, wI, .verifier :: lg⟩ := by
            simp only [stepG]
            rw [hroute]
          rw [show runG env 2 ⟨.verifier, s, vI, wI, lg⟩
            = stepG env (stepG env ⟨.verifier, s, vI, wI, lg⟩) from rfl, h1]
          rfl
        rw [h2]
        refine ih _ rfl ?_
        simp only [writer_node, verifier_node]
        omega
      · -- approved: exit now
        have hroute : route_after_verifier (verifier_node env vI s) = .final_delivery := by
          rw [route_after_verifier, if_pos (by simp [verifier_node, hv])]
        have h2 := verifier_exit env s vI wI lg hroute
        rw [runG_fix h2]
        exact h2

lemma router_node_draft (env : GraphEnv) (s : AgentState) :
    (router_node env s).email_draft = s.email_draft := by
  rw [router_node]
  split
  · rfl
  · split <;> rfl

/-- Claim-following verifier routing for C2: the claim's words compare
`revision_count` against the configurable `max_revision_count`.  This
definition follows the claim, for comparison with `route_after_verifier`,
which is translated from src/graph.py. -/
def routeC2Spec (st : Settings) (s : AgentState) : VerifierRoute :=
  if s.final_status = some "approved" then .final_delivery
  else if s.revision_count > st.max_revision_count then .final_delivery
  else .writer

/-- An environment in which the input is classified "lead" and the
verifier rejects every draft (the worst case for termination). -/
def envReject : GraphEnv :=
  { anonF := fun t => t
    spamRe := fun _ => false
    classify := some "lead"
    verdict := fun _ => false
    draft := fun _ => "draft"
    research := ("Acme Corp", "info")
    supportDraft := "support"
    deanonF := fun t => t }

/-- Scenario-B environment: lead classification; the verifier rejects its
first two calls and approves the third. -/
def envScenB : GraphEnv :=
  { anonF := fun t => t
    spamRe := fun _ => false
    classify := some "lead"
    verdict := fun k => decide (2 ≤ k)
    draft := fun _ => "draft"
    research := ("Acme Corp", "info")
    supportDraft := "support"
    deanonF := fun t => t }

/-- An environment whose spam regex matches every (anonymized) input. -/
def envSpam : GraphEnv :=
  { anonF := fun t => t
    spamRe := fun _ => true
    classify := none
    verdict := fun _ => false
    draft := fun _ => "draft"
    research := ("", "")
    supportDraft := ""
    deanonF := fun t => t }

/-- C2 (corrected): after the Verifier the workflow routes to
FinalDelivery iff the status is approved or `revision_count` exceeds the
hardcoded literal 3 of src/graph.py — which coincides with the DEFAULT
`max_revision_count` but ignores any configured value (see the
counterexample) — and the soft-stop then delivers the accumulated draft
(two super-steps later the run is done and the delivered draft is the
deanonymized accumulated draft) rather than failing; otherwise (not
approved, count ≤ 3) it routes back to the Writer. -/
theorem claim_C2_soft_stop :
    (∀ s : AgentState, route_after_verifier s = routeC2Spec defaultSettings s) ∧
    (∀ (env : GraphEnv) (s : AgentState) (vI wI : Nat) (lg : List Node),
        3 < s.revision_count →
          (runG env 2 ⟨.verifier, s, vI, wI, lg⟩).cur = .done ∧
          (runG env 2 ⟨.verifier, s, vI, wI, lg⟩).st.email_draft
            = env.deanonF s.email_draft) ∧
    (∀ s : AgentState, s.final_status = some "approved" →
        route_after_verifier s = .final_delivery) ∧
    (∀ s : AgentState, s.final_status ≠ some "approved" →
        s.revision_count ≤ 3 → route_after_verifier s = .writer) := by
  refine ⟨fun s => rfl, ?_, ?_, ?_⟩
  · intro env s vI wI lg h
    have hroute : route_after_verifier (verifier_node env vI s) = .final_delivery := by
      refine route_after_verifier_high ?_
      simp only [verifier_node]
      omega
    have h1 : stepG env ⟨.verifier, s, vI, wI, lg⟩
        = ⟨.final_delivery, verifier_node env vI s, vI + 1, wI, .verifier :: lg⟩ := by
      simp only [stepG]
      rw [hroute]
    have h2 : runG env 2 ⟨.verifier, s, vI, wI, lg⟩
        = ⟨.done, final_delivery_node env (verifier_node env vI s), vI + 1, wI,
           .final_delivery :: .verifier :: lg⟩ := by
      rw [show runG env 2 ⟨.verifier, s, vI, wI, lg⟩
        = stepG env (stepG env ⟨.verifier, s, vI, wI, lg⟩) from rfl, h1]
      rfl
    rw [h2]
    exact ⟨rfl, rfl⟩
  · intro s h
    rw [route_after_verifier, if_pos h]
  · intro s h1 h2
    rw [route_after_verifier, if_neg h1, if_neg (by omega)]

/-- C2 counterexample: `max_revision_count = 5` is a valid configuration
(pydantic bounds 1..10), and on a rejected draft at `revision_count = 4`
the claim's routing keeps revising (`writer`) while the code — comparing
against its hardcoded 3 — delivers. -/
theorem claim_C2_soft_stop_cex :
    Settings.Valid { defaultSettings with max_revision_count := 5 } ∧
    routeC2Spec { defaultSettings with max_revision_count := 5 }
      { revision_count := 4, final_status := some "rejected" } = .writer ∧
    route_after_verifier
      { revision_count := 4, final_status := some "rejected" } = .final_delivery := by
  refine ⟨?_, by decide, by decide⟩
  show (1 : ℕ) ≤ 5 ∧ 5 ≤ 10 ∧ 5 ≤ 15 ∧ 15 ≤ 50 ∧ (0 : ℚ) ≤ 6 / 10 ∧
    (6 : ℚ) / 10 ≤ 1 ∧ 60 ≤ 3600
  norm_num

/-- C3 (amended): the workflow terminates for EVERY sequence of verifier
outcomes, but the tight bound is 11 node visits (router + researcher +
4×(writer + verifier) + final_delivery), not `max_revision_count + 3`
(see the counterexample). -/
theorem claim_C3_termination (env : GraphEnv) (g : GState)
    (hcur : g.cur = .router) : (runG env 11 g).cur = .done := by
  obtain ⟨cur, s, vI, wI, lg⟩ := g
  simp only at hcur
  subst hcur
  rcases hroute : route_after_router (router_node env s) with _ | _ | _
  · -- lead: researcher, then the writer/verifier loop
    have h1 : stepG env ⟨.router, s, vI, wI, lg⟩
        = ⟨.researcher, router_node env s, vI, wI, .router :: lg⟩ := by
      simp only [stepG]
      rw [hroute]
    have h3 : runG env 3 ⟨.router, s, vI, wI, lg⟩
        = ⟨.verifier, writer_node env wI (researcher_node env (router_node env s)),
           vI, wI + 1, .writer :: .researcher :: .router :: lg⟩ := by
      rw [show runG env 3 ⟨.router, s, vI, wI, lg⟩
        = stepG env (stepG env (stepG env ⟨.router, s, vI, wI, lg⟩)) from rfl, h1]
      rfl
    rw [show (11 : Nat) = 3 + 8 from rfl, runG_add, h3]
    refine verifier_reaches env 3 _ rfl ?_
    show 4 ≤ (writer_node env wI (researcher_node env (router_node env s))).revision_count + 3
    simp only [writer_node, researcher_node, router_node_rc]
    omega
  · -- complaint: support, then delivery
    have h1 : stepG env ⟨.router, s, vI, wI, lg⟩
        = ⟨.support, router_node env s, vI, wI, .router :: lg⟩ := by
      simp only [stepG]
      rw [hroute]
    have h3 : (runG env 3 ⟨.router, s, vI, wI, lg⟩).cur = .done := by
      rw [show runG env 3 ⟨.router, s, vI, wI, lg⟩
        = stepG env (stepG env (stepG env ⟨.router, s, vI, wI, lg⟩)) from rfl, h1]
      rfl
    rw [show (11 : Nat) = 3 + 8 from rfl, runG_add, runG_fix h3]
    exact h3
  · -- anything else: END at once
    have h1 : (runG env 1 ⟨.router, s, vI, wI, lg⟩).cur = .done := by
      rw [show runG env 1 ⟨.router, s, vI, wI, lg⟩
        = stepG env ⟨.router, s, vI, wI, lg⟩ from rfl]
      simp only [stepG]
      rw [hroute]
    rw [show (11 : Nat) = 1 + 10 from rfl, runG_add, runG_fix h1]
    exact h1

/-- C3 witness: the always-rejecting lead run is done after 11 steps. -/
theorem claim_C3_termination_witness :
    (runG envReject 11 ⟨.router, {}, 0, 0, []⟩).cur = .done :=
  claim_C3_termination envReject ⟨.router, {}, 0, 0, []⟩ rfl

/-- C3 counterexample: with the default `max_revision_count = 3`, the
claimed bound is 6 node visits — but after 6 super-steps the
always-rejecting lead run is still at the Writer, not Done. -/
theorem claim_C3_termination_cex :
    (runG envReject (defaultSettings.max_revision_count + 3)
        ⟨.router, {}, 0, 0, []⟩).cur = .writer := by
  decide

/-- C7 (confirmed): `revision_count` changes at exactly the Writer node,
by exactly 1 per visit (first conjunct, over every environment and every
execution state); and in Scenario B — lead classification, verifier
rejects twice then approves — the run is done after 9 super-steps with
`revision_count = 3`, `final_status = approved`, and FinalDelivery (the
only node that deanonymizes) visited exactly once. -/
theorem claim_C7_scenario_B :
    (∀ (env : GraphEnv) (g : GState),
        (stepG env g).st.revision_count
          = g.st.revision_count + (if g.cur = Node.writer then 1 else 0)) ∧
    ((runG envScenB 9 ⟨.router, {}, 0, 0, []⟩).cur = .done ∧
     (runG envScenB 9 ⟨.router, {}, 0, 0, []⟩).st.revision_count = 3 ∧
     (runG envScenB 9 ⟨.router, {}, 0, 0, []⟩).st.final_status = some "approved" ∧
     (runG envScenB 9 ⟨.router, {}, 0, 0, []⟩).log.count .final_delivery = 1) := by
  constructor
  · intro env g
    obtain ⟨cur, s, vI, wI, lg⟩ := g
    cases cur <;>
      simp [stepG, router_node_rc, researcher_node, writer_node, verifier_node,
            support_node, final_delivery_node]
  · exact ⟨by decide, by decide, by decide, by decide⟩

/-- C8 (confirmed): when the spam regex matches the anonymized input, the
Router returns category "spam" at confidence 1.0; the LLM tier is never
consulted (the Router's output does not depend on the classifier oracle);
the draft is untouched; and the whole run halts right after the Router:
from step 1 on, the execution state is Done with node log exactly
[router] — no Researcher, Writer, Verifier or FinalDelivery (hence no
deanonymize) visit. -/
theorem claim_C8_spam_short_circuit (env : GraphEnv) (s : AgentState)
    (hspam : env.spamRe (env.anonF s.input_text) = true) :
    (router_node env s).category = "spam" ∧
    (router_node env s).confidence_score = 1 ∧
    (∀ c, router_node { env with classify := c } s = router_node env s) ∧
    (router_node env s).email_draft = s.email_draft ∧
    (∀ n, runG env (n + 1) ⟨.router, s, 0, 0, []⟩
        = ⟨.done, router_node env s, 0, 0, [.router]⟩) := by
  have hnode : router_node env s
      = { s with
          input_text := env.anonF s.input_text
          category := "spam"
          confidence_score := 1 } := by
    rw [router_node, if_pos hspam]
  have hroute : route_after_router (router_node env s) = .END := by
    rw [route_after_router, hnode]
    rw [if_neg (by simp), if_neg (by simp)]
  have hstep : stepG env ⟨.router, s, 0, 0, []⟩
      = ⟨.done, router_node env s, 0, 0, [.router]⟩ := by
    simp only [stepG]
    rw [hroute]
  refine ⟨by rw [hnode], by rw [hnode], ?_, by rw [hnode], ?_⟩
  · intro c
    rw [router_node, router_node, if_pos hspam, if_pos hspam]
  · intro n
    rw [show runG env (n + 1) ⟨.router, s, 0, 0, []⟩
        = runG env n (stepG env ⟨.router, s, 0, 0, []⟩) from rfl, hstep]
    exact runG_fix
      (show GState.cur ⟨.done, router_node env s, 0, 0, [.router]⟩ = .done from rfl) n

/-- C8 witness: the short-circuit at a concrete always-matching
environment and the default initial state. -/
theorem claim_C8_spam_short_circuit_witness :
    (router_node envSpam {}).category = "spam" ∧
    (router_node envSpam {}).confidence_score = 1 ∧
    (∀ c, router_node { envSpam with classify := c } {} = router_node envSpam {}) ∧
    (router_node envSpam {}).email_draft = ({} : AgentState).email_draft ∧
    (∀ n, runG envSpam (n + 1) ⟨.router, {}, 0, 0, []⟩
        = ⟨.done, router_node envSpam {}, 0, 0, [.router]⟩) :=
  claim_C8_spam_short_circuit envSpam {} rfl

/-- C10 (confirmed): for every category other than exactly "lead" or
"complaint" — "unknown" or any unrecognized value included, not only
"spam" — `route_after_router` returns the terminal END; a run whose
Router output carries such a category is done right after the Router with
the draft untouched (no draft produced, and FinalDelivery — the only
deanonymizing node — is never visited). -/
theorem claim_C10_router_catch_all (c : String)
    (h1 : c ≠ "lead") (h2 : c ≠ "complaint") :
    (∀ s : AgentState, s.category = c → route_after_router s = .END) ∧
    (∀ (env : GraphEnv) (s : AgentState) (vI wI : Nat) (lg : List Node),
        (router_node env s).category = c →
        (∀ n, runG env (n + 1) ⟨.router, s, vI, wI, lg⟩
            = ⟨.done, router_node env s, vI, wI, .router :: lg⟩) ∧
        (router_node env s).email_draft = s.email_draft) := by
  have hend : ∀ s : AgentState, s.category = c → route_after_router s = .END := by
    intro s hc
    rw [route_after_router, hc, if_neg h1, if_neg h2]
  refine ⟨hend, ?_⟩
  intro env s vI wI lg hcat
  have hroute := hend _ hcat
  have hstep : stepG env ⟨.router, s, vI, wI, lg⟩
      = ⟨.done, router_node env s, vI, wI, .router :: lg⟩ := by
    simp only [stepG]
    rw [hroute]
  refine ⟨?_, router_node_draft env s⟩
  intro n
  rw [show runG env (n + 1) ⟨.router, s, vI, wI, lg⟩
      = runG env n (stepG env ⟨.router, s, vI, wI, lg⟩) from rfl, hstep]
  exact runG_fix
    (show GState.cur ⟨.done, router_node env s, vI, wI, .router :: lg⟩ = .done from rfl) n

/-- C10 witness: the catch-all at the concrete category "unknown". -/
theorem claim_C10_router_catch_all_witness :
    route_after_router { category := "unknown" } = .END :=
  (claim_C10_router_catch_all "unknown" (by decide) (by decide)).1
    { category := "unknown" } rfl

end Beaver
